import Mathlib

/-!
Verification development for the maplibre-contour repository.

The TypeScript sources are shallowly embedded: JavaScript numbers carrying
elevation or coordinate data are modelled as exact rationals (`ℚ`), with
`Option ℚ` for values that may be `NaN` (`none` plays the role of `NaN`);
JavaScript 32-bit integer operations (`<<`, `>>`, `^` as used by the
vector-tile writer) are modelled on `ℤ` with explicit reduction modulo 2^32;
fallible code returns `Except`.  Mutable state (the async LRU cache, the
fragment maps of the isoline tracer) is modelled by explicit state passing,
with JavaScript `Map` insertion-order semantics (`set` keeps an existing
key at its original position, new keys append) mirrored on association
lists.
-/

namespace MaplibreContour

/-- A JavaScript number that may be NaN: `none` models `NaN`. -/
abbrev Val := Option ℚ

/-- JavaScript `Math.min`: NaN-propagating minimum. -/
def jsMin (a b : Val) : Val :=
  match a, b with
  | some x, some y => some (min x y)
  | _, _ => none

/-- JavaScript `Math.max`: NaN-propagating maximum. -/
def jsMax (a b : Val) : Val :=
  match a, b with
  | some x, some y => some (max x y)
  | _, _ => none

/-- JavaScript `Math.round` on an exact value: nearest integer, ties toward
positive infinity, i.e. `⌊x + 1/2⌋` (stated via the executable
`Rat.floor`; `ratFloor_eq` below identifies it with `⌊⌋`). -/
def jsRound (x : ℚ) : ℚ := (Rat.floor (x + 1/2) : ℤ)

/-- Rounding to the nearest integer with ties away from zero (the rounding
mode named by the specification text). -/
def roundTiesAway (x : ℚ) : ℚ :=
  if 0 ≤ x then (Rat.floor (x + 1/2) : ℤ) else -(Rat.floor (-x + 1/2) : ℤ)

/-- Reduce an integer to the signed 32-bit range, as JavaScript bitwise
operators do (`ToInt32`). -/
def toInt32 (n : ℤ) : ℤ := (n + 2 ^ 31) % 2 ^ 32 - 2 ^ 31

/-! ## height-tile.ts -/

/-- A decoded raster tile (`DemTile` in `types.ts`): row-major elevation
data. -/
structure DemTile where
  width : ℤ
  height : ℤ
  data : List ℚ

/-- `MIN_VALID_M`/`MAX_VALID_M` bounds check from `height-tile.ts`
(`defaultIsValid`); the NaN test is vacuous on `ℚ`. -/
def defaultIsValid (v : ℚ) : Bool := decide (-12000 ≤ v) && decide (v ≤ 9000)

/-- A tile containing elevation values aligned to a grid (`HeightTile`).
The sampling closure returns `none` for NaN. -/
structure HeightTile where
  width : ℤ
  height : ℤ
  get : ℤ → ℤ → Val

/-- `HeightTile.fromRawDem`: sample `demTile.data[y * width + x]`, mapping an
out-of-bounds flat index (JavaScript array read of `undefined`) or an
invalid value to NaN. -/
def fromRawDem (d : DemTile) : HeightTile :=
  ⟨d.width, d.height, fun x y =>
    let idx := y * d.width + x
    if 0 ≤ idx then
      match d.data.get? idx.toNat with
      | some v => if defaultIsValid v then some v else none
      | none => none
    else none⟩

/-- `HeightTile.combineNeighbors`: stitch a tile and its 8 neighbors
`[nw, n, ne, w, c, e, sw, s, se]`.  Throws unless 9 entries are given;
yields `undefined` (here `Except.ok none`) when the center is missing. -/
def combineNeighbors (neighbors : List (Option HeightTile)) :
    Except String (Option HeightTile) :=
  if neighbors.length ≠ 9 then
    .error "Must include a tile plus 8 neighbors"
  else
    match neighbors.getD 4 none with
    | none => .ok none
    | some mainTile =>
      let w := mainTile.width
      let h := mainTile.height
      .ok (some ⟨w, h, fun x y =>
        let row : ℕ × ℤ :=
          if y < 0 then (0, y + h) else if y < h then (3, y) else (6, y - h)
        let col : ℕ × ℤ :=
          if x < 0 then (0, x + w) else if x < w then (1, x) else (2, x - w)
        match neighbors.getD (row.1 + col.1) none with
        | none => none
        | some grid => grid.get col.2 row.2⟩)

/-! ## decode-image.ts -/

/-- Raster encodings understood by the decoder. -/
inductive Encoding where
  | mapbox
  | terrarium
deriving DecidableEq

/-- Per-pixel decoder selected in `decodeParsedImage`. -/
def pixelDecoder (e : Encoding) (r g b : ℚ) : ℚ :=
  match e with
  | .mapbox => -10000 + (r * 256 * 256 + g * 256 + b) * (1/10)
  | .terrarium => r * 256 + g + b / 256 - 32768

/-- The write loop of `decodeParsedImage`: step through the RGBA stream four
bytes at a time, decoding each leading RGB triple (alpha discarded). -/
def decodeLoop (e : Encoding) : List ℚ → List ℚ
  | r :: g :: b :: _ :: rest => pixelDecoder e r g b :: decodeLoop e rest
  | _ => []

/-- `decodeParsedImage`: the output `Float32Array` has `width * height`
cells, zero-initialised; cell `j` receives the decoded pixel `j` when the
input supplies one (writes past the end are dropped, as on a typed
array). -/
def decodeParsedImage (width height : ℕ) (e : Encoding) (input : List ℚ) :
    DemTile :=
  let vals := decodeLoop e input
  ⟨(width : ℤ), (height : ℤ),
    (List.range (width * height)).map fun j => vals.getD j 0⟩

/-! ## isolines.ts

The tracer is embedded in two layers, mirroring the source: a scanning layer
that walks the grid row-major with the carried corner/min/max state of the
inner loop and records, per cell, the corner samples and the threshold steps
taken (`scanTrace`), and a fragment-assembly layer that folds those steps
into the mutable fragment maps (`generateIsolinesWith`).  The smoothing
parameter is fixed to its default `"none"`.  The output rounding function is
a parameter so that the committed output can be compared with the raw
(unrounded) committed coordinates. -/

/-- An edge endpoint from the marching-squares case table: the column/row
half-offsets, each in {0, 1, 2}. -/
abbrev CasePoint := ℕ × ℕ

/-- The 16-entry case table `CASES` from `isolines.ts`, transcribed
entry by entry. -/
def CASES : List (List (CasePoint × CasePoint)) := [
  [],
  [((1, 2), (0, 1))],
  [((2, 1), (1, 2))],
  [((2, 1), (0, 1))],
  [((1, 0), (2, 1))],
  [((1, 2), (0, 1)), ((1, 0), (2, 1))],
  [((1, 0), (1, 2))],
  [((1, 0), (0, 1))],
  [((0, 1), (1, 0))],
  [((1, 2), (1, 0))],
  [((0, 1), (1, 0)), ((2, 1), (1, 2))],
  [((2, 1), (1, 0))],
  [((0, 1), (2, 1))],
  [((1, 2), (2, 1))],
  [((0, 1), (1, 2))],
  []]

/-- The packed grid-edge id (`index` in `isolines.ts`):
`(x*2 + px) + (y*2 + py) * (width+1) * 2`. -/
def segIndex (width x y : ℤ) (p : CasePoint) : ℤ :=
  (x * 2 + (p.1 : ℤ)) + (y * 2 + (p.2 : ℤ)) * (width + 1) * 2

/-- Edge interpolation parameter (`ratio` in `isolines.ts`). -/
def ratio (a b c : ℚ) : ℚ := (b - a) / (c - a)

/-- The list of integers `lo, lo+1, …, hi-1` (a `for` loop counter). -/
def intRange (lo hi : ℤ) : List ℤ :=
  (List.range (hi - lo).toNat).map fun (k : ℕ) => lo + (k : ℤ)

/-- The threshold loop
`for (t = ceil(lo/i)*i; t <= floor(hi/i)*i; t += i)` evaluated in exact
arithmetic for a positive step `i`: both loop bounds are multiples of `i`,
so the loop visits exactly `floor(hi/i) - ceil(lo/i) + 1` values. -/
def thresholdList (i lo hi : ℚ) : List ℚ :=
  (List.range (Rat.floor (hi / i) - Rat.ceil (lo / i) + 1).toNat).map
    fun (k : ℕ) => (Rat.ceil (lo / i) : ℚ) * i + (k : ℚ) * i

/-- The 4-bit case index `(tl ? 8 : 0) | (tr ? 4 : 0) | (br ? 2 : 0) |
(bl ? 1 : 0)` where a corner is set when its sample exceeds the
threshold. -/
def caseIndex (tld trd bld brd t : ℚ) : ℕ :=
  (if t < tld then 8 else 0) + (if t < trd then 4 else 0) +
    (if t < brd then 2 else 0) + (if t < bld then 1 else 0)

/-- One threshold handled inside a cell: the threshold value, its case
index, and the case-table segments emitted for it. -/
structure ThresholdStep where
  threshold : ℚ
  caseIdx : ℕ
  segments : List (CasePoint × CasePoint)
deriving DecidableEq, Repr

/-- One visited cell of the scan: its row, column, the four corner samples
in effect (`tld`, `trd`, `bld`, `brd`), and `none` in `steps` exactly when
the cell was skipped because a corner is NaN. -/
structure CellEvent where
  r : ℤ
  c : ℤ
  tld : Val
  trd : Val
  bld : Val
  brd : Val
  steps : Option (List ThresholdStep)
deriving DecidableEq, Repr

/-- The state carried across the inner column loop: the right-hand corner
samples and their running min/max. -/
structure RowState where
  trd : Val
  brd : Val
  minR : Val
  maxR : Val

/-- One iteration of the inner column loop of `generateIsolines`: shift the
carried right corners to the left, sample the new right corners, skip on
NaN, and otherwise enumerate the thresholds between the cell min and max
with their case classification. -/
def cellEvent (tile : HeightTile) (interval : ℚ) (r c : ℤ) (st : RowState) :
    CellEvent × RowState :=
  let tld := st.trd
  let bld := st.brd
  let trd := tile.get c (r - 1)
  let brd := tile.get c r
  let minL := st.minR
  let maxL := st.maxR
  let minR := jsMin trd brd
  let maxR := jsMax trd brd
  let st' : RowState := ⟨trd, brd, minR, maxR⟩
  match tld, trd, bld, brd with
  | some a, some b, some d, some e =>
    match jsMin minL minR, jsMax maxL maxR with
    | some mn, some mx =>
      (⟨r, c, some a, some b, some d, some e,
        some ((thresholdList interval mn mx).map fun t =>
          ⟨t, caseIndex a b d e t, CASES.getD (caseIndex a b d e t) []⟩)⟩, st')
    | _, _ =>
      -- a NaN min/max makes the threshold loop bound NaN, so it runs 0 times
      (⟨r, c, some a, some b, some d, some e, some []⟩, st')
  | _, _, _, _ => (⟨r, c, tld, trd, bld, brd, none⟩, st')

/-- Run the inner column loop over the remaining columns. -/
def scanRowGo (tile : HeightTile) (interval : ℚ) (r : ℤ) :
    List ℤ → RowState → List CellEvent
  | [], _ => []
  | c :: cs, st =>
    let p := cellEvent tile interval r c st
    p.1 :: scanRowGo tile interval r cs p.2

/-- One iteration of the outer row loop: seed the carried state from column
0 of rows `r-1` and `r`, then run the columns `1-buffer … width+buffer-1`. -/
def scanRow (tile : HeightTile) (interval : ℚ) (buffer r : ℤ) :
    List CellEvent :=
  let trd0 := tile.get 0 (r - 1)
  let brd0 := tile.get 0 r
  scanRowGo tile interval r (intRange (1 - buffer) (tile.width + buffer))
    ⟨trd0, brd0, jsMin trd0 brd0, jsMax trd0 brd0⟩

/-- The full scan of `generateIsolines`: rows `1-buffer … height+buffer-1`,
row-major. -/
def scanTrace (tile : HeightTile) (interval : ℚ) (buffer : ℤ) :
    List CellEvent :=
  (intRange (1 - buffer) (tile.height + buffer)).flatMap
    (scanRow tile interval buffer)

/-- An open polyline under assembly (`Fragment` in `isolines.ts`): its two
endpoint edge ids and its flat coordinate list. -/
structure Fragment where
  fstart : ℤ
  fend : ℤ
  points : List ℚ
deriving DecidableEq, Repr, Inhabited

/-- JavaScript `Map.get` on an insertion-ordered association list. -/
def jmGet {α β : Type} [DecidableEq α] : List (α × β) → α → Option β
  | [], _ => none
  | (k, v) :: rest, key => if k = key then some v else jmGet rest key

/-- JavaScript `Map.set`: replace in place when the key exists, append
otherwise. -/
def jmSet {α β : Type} [DecidableEq α] : List (α × β) → α → β → List (α × β)
  | [], key, val => [(key, val)]
  | (k, v) :: rest, key, val =>
    if k = key then (k, val) :: rest else (k, v) :: jmSet rest key val

/-- JavaScript `Map.delete`: remove the (unique) entry for the key. -/
def jmDelete {α β : Type} [DecidableEq α] : List (α × β) → α → List (α × β)
  | [], _ => []
  | (k, v) :: rest, key => if k = key then rest else (k, v) :: jmDelete rest key

/-- The mutable state of the fragment-assembly layer: a fresh-id counter
and heap for `Fragment` objects (shared mutable references in the source),
the per-level `fragmentByStart`/`fragmentByEnd` maps holding fragment ids,
and the committed `segments` output. -/
structure IsoState where
  nextId : ℕ
  frags : List (ℕ × Fragment)
  byStartL : List (ℚ × List (ℤ × ℕ))
  byEndL : List (ℚ × List (ℤ × ℕ))
  segments : List (ℚ × List (List ℚ))
deriving Repr

/-- The `interpolate` helper of `generateIsolines`, producing the
floating-point coordinate of the crossing on the cell edge named by the
case point. -/
def interpolate (mult : ℚ) (c r : ℤ) (tld trd bld brd t : ℚ)
    (p : CasePoint) : ℚ × ℚ :=
  if p.1 = 0 then
    (mult * ((c : ℚ) - 1), mult * ((r : ℚ) - ratio bld t tld))
  else if p.1 = 2 then
    (mult * (c : ℚ), mult * ((r : ℚ) - ratio brd t trd))
  else if p.2 = 0 then
    (mult * ((c : ℚ) - ratio trd t tld), mult * ((r : ℚ) - 1))
  else
    (mult * ((c : ℚ) - ratio brd t bld), mult * (r : ℚ))

/-- Process one case-table segment for one threshold: the body of the
`for (const segment of CASES[...])` loop, covering ring closing, fragment
joining, extension at either end, and fragment creation.  Rounding of a
committed line happens here, through the `round` parameter. -/
def processSegment (round : ℚ → ℚ) (mult : ℚ) (width r c : ℤ)
    (tld trd bld brd t : ℚ) (seg : CasePoint × CasePoint) (st : IsoState) :
    IsoState :=
  let byStart := (jmGet st.byStartL t).getD []
  let byEnd := (jmGet st.byEndL t).getD []
  let startIndex := segIndex width c r seg.1
  let endIndex := segIndex width c r seg.2
  match jmGet byEnd startIndex with
  | some fid =>
    let byEnd := jmDelete byEnd startIndex
    match jmGet byStart endIndex with
    | some gid =>
      let byStart := jmDelete byStart endIndex
      if fid = gid then
        -- closing a ring
        let f := (jmGet st.frags fid).getD default
        let pt := interpolate mult c r tld trd bld brd t seg.2
        let f := { f with points := f.points ++ [pt.1, pt.2] }
        let segments :=
          if f.points.length < 2 then st.segments
          else jmSet st.segments t
            ((jmGet st.segments t).getD [] ++ [f.points.map round])
        { st with
          frags := jmSet st.frags fid f,
          byStartL := jmSet st.byStartL t byStart,
          byEndL := jmSet st.byEndL t byEnd,
          segments := segments }
      else
        -- connecting 2 segments
        let f := (jmGet st.frags fid).getD default
        let g := (jmGet st.frags gid).getD default
        let f := { f with points := f.points ++ g.points, fend := g.fend }
        { st with
          frags := jmSet st.frags fid f,
          byStartL := jmSet st.byStartL t byStart,
          byEndL := jmSet st.byEndL t (jmSet byEnd g.fend fid) }
    | none =>
      -- adding to the end of f
      let f := (jmGet st.frags fid).getD default
      let pt := interpolate mult c r tld trd bld brd t seg.2
      let f := { f with points := f.points ++ [pt.1, pt.2], fend := endIndex }
      { st with
        frags := jmSet st.frags fid f,
        byStartL := jmSet st.byStartL t byStart,
        byEndL := jmSet st.byEndL t (jmSet byEnd endIndex fid) }
  | none =>
    match jmGet byStart endIndex with
    | some fid =>
      -- extending the start of f
      let byStart := jmDelete byStart endIndex
      let f := (jmGet st.frags fid).getD default
      let pt := interpolate mult c r tld trd bld brd t seg.1
      let f := { f with
        points := [pt.1, pt.2] ++ f.points,
        fstart := startIndex }
      { st with
        frags := jmSet st.frags fid f,
        byStartL := jmSet st.byStartL t (jmSet byStart startIndex fid),
        byEndL := jmSet st.byEndL t byEnd }
    | none =>
      -- starting a new fragment
      let ps := interpolate mult c r tld trd bld brd t seg.1
      let pe := interpolate mult c r tld trd bld brd t seg.2
      let f : Fragment := ⟨startIndex, endIndex, [ps.1, ps.2, pe.1, pe.2]⟩
      { st with
        nextId := st.nextId + 1,
        frags := jmSet st.frags st.nextId f,
        byStartL := jmSet st.byStartL t (jmSet byStart startIndex st.nextId),
        byEndL := jmSet st.byEndL t (jmSet byEnd endIndex st.nextId) }

/-- Process one visited cell: nothing for a skipped cell, otherwise fold
every threshold step and its segments in order. -/
def processEvent (round : ℚ → ℚ) (mult : ℚ) (width : ℤ) (ev : CellEvent)
    (st : IsoState) : IsoState :=
  match ev.steps, ev.tld, ev.trd, ev.bld, ev.brd with
  | some steps, some a, some b, some d, some e =>
    steps.foldl (fun st step =>
      step.segments.foldl (fun st seg =>
        processSegment round mult width ev.r ev.c a b d e step.threshold seg
          st) st) st
  | _, _, _, _, _ => st

/-- The final sweep of `generateIsolines`: commit every remaining non-empty
open fragment, per level in insertion order. -/
def finalizeLevels (round : ℚ → ℚ) (st : IsoState) :
    List (ℚ × List (List ℚ)) :=
  st.byStartL.foldl (fun segs p =>
    p.2.foldl (fun segs q =>
      let f := (jmGet st.frags q.2).getD default
      if f.points.length < 2 then segs
      else jmSet segs p.1 ((jmGet segs p.1).getD [] ++ [f.points.map round]))
      segs) st.segments

/-- `generateIsolines` with the output-rounding function as a parameter
(the source applies `Math.round`); smoothing fixed at its default
`"none"`.  Output: association list from elevation to committed lines. -/
def generateIsolinesWith (round : ℚ → ℚ) (interval : ℚ) (tile : HeightTile)
    (extent : ℚ) (buffer : ℤ) : List (ℚ × List (List ℚ)) :=
  if interval = 0 then []
  else
    let mult := extent / ((tile.width : ℚ) - 1)
    finalizeLevels round
      ((scanTrace tile interval buffer).foldl
        (fun st ev => processEvent round mult tile.width ev st)
        ⟨0, [], [], [], []⟩)

/-- `generateIsolines` as shipped: committed coordinates rounded with
JavaScript `Math.round`. -/
def generateIsolines (interval : ℚ) (tile : HeightTile) (extent : ℚ)
    (buffer : ℤ) : List (ℚ × List (List ℚ)) :=
  generateIsolinesWith jsRound interval tile extent buffer

/-- Apply a rounding function to every coordinate of a tracer output. -/
def roundOutput (round : ℚ → ℚ) (out : List (ℚ × List (List ℚ))) :
    List (ℚ × List (List ℚ)) :=
  out.map fun p => (p.1, p.2.map (List.map round))

/-! ### The claimed description of the scan (for C1)

The following definitions restate the scan directly, the way the claim
reads: row-major cell visits, the four corner samples written out
explicitly, the skip on any NaN corner, thresholds `⌈min/i⌉·i … ⌊max/i⌋·i`,
and the case classification.  They use the mathematical `⌈⌉`/`⌊⌋`. -/

/-- The claimed threshold set `{⌈mn/i⌉·i, …, ⌊mx/i⌋·i}` stepping by `i`. -/
def specThresholds (i mn mx : ℚ) : List ℚ :=
  (intRange ⌈mn / i⌉ (⌊mx / i⌋ + 1)).map fun (k : ℤ) => (k : ℚ) * i

/-- The claimed per-cell threshold steps: thresholds over the min/max of
the four corners, each classified by the 4-bit case index into the case
table. -/
def specSteps (interval a b d e : ℚ) : List ThresholdStep :=
  (specThresholds interval (min (min a d) (min b e))
      (max (max a d) (max b e))).map
    fun t => ⟨t, caseIndex a b d e t, CASES.getD (caseIndex a b d e t) []⟩

/-- The cell visit at `(r, c)` described directly: right corners sampled at
column `c`, left corners at column `pc` (the column the scan sampled the
carried seed from), skipped exactly when a corner is NaN. -/
def specCellEventAt (tile : HeightTile) (interval : ℚ) (r c pc : ℤ) :
    CellEvent :=
  match tile.get pc (r - 1), tile.get c (r - 1), tile.get pc r,
      tile.get c r with
  | some a, some b, some d, some e =>
    ⟨r, c, some a, some b, some d, some e,
      some (specSteps interval a b d e)⟩
  | tld, trd, bld, brd => ⟨r, c, tld, trd, bld, brd, none⟩

/-- The claimed scan: cells in row-major order; the left corners of a cell
come from column `c-1`, except in the first column of each row where the
loop seeds the carried samples from column 0. -/
def specTrace (tile : HeightTile) (interval : ℚ) (buffer : ℤ) :
    List CellEvent :=
  (intRange (1 - buffer) (tile.height + buffer)).flatMap fun r =>
    (intRange (1 - buffer) (tile.width + buffer)).map fun c =>
      specCellEventAt tile interval r c
        (if c = 1 - buffer then 0 else c - 1)

/-! ## vtpbf.ts (geometry writing)

`writeGeometry` is embedded at the level of the sequence of values passed
to `pbf.writeVarint`: the claim under scrutiny concerns the command/delta
structure of that stream, not the byte-level varint packing.  Rings are
lists of integer points (the source keeps them as flat arrays of even
length). -/

/-- `command(cmd, length) = (length << 3) + (cmd & 0x7)` with JavaScript
32-bit shift semantics (`cmd` is one of the literals 1, 2, 7). -/
def command (cmd len : ℤ) : ℤ := toInt32 (len * 8) + cmd % 8

/-- `zigzag(num) = (num << 1) ^ (num >> 31)` with JavaScript 32-bit
semantics: `num >> 31` is 0 or −1, and xor with −1 on 32 bits is the
bitwise complement `s ↦ -s-1`. -/
def zigzag (num : ℤ) : ℤ :=
  let v := toInt32 num
  let s := toInt32 (2 * v)
  if v < 0 then -s - 1 else s

/-- The per-point loop of `writeGeometry` within one ring, for a
non-polygon type: at index `i = 1` the lineto command word is written
before the deltas; the cursor advances by the deltas.  Returns the stream
and the final cursor. -/
def writeRingGo (lineCount : ℤ) : ℕ → ℤ → ℤ → List (ℤ × ℤ) → List ℤ × ℤ × ℤ
  | _, x, y, [] => ([], x, y)
  | i, x, y, p :: rest =>
    let dx := p.1 - x
    let dy := p.2 - y
    let head := if i = 1 then [command 2 (lineCount - 1)] else []
    let tail := writeRingGo lineCount (i + 1) (x + dx) (y + dy) rest
    (head ++ zigzag dx :: zigzag dy :: tail.1, tail.2)

/-- The ring loop of `writeGeometry` for a LineString feature (`count` is
1, no closepath): `moveto 1`, then the point loop, the cursor persisting
into the next ring. -/
def writeGeometryGo (x y : ℤ) : List (List (ℤ × ℤ)) → List ℤ
  | [] => []
  | ring :: rest =>
    let p := writeRingGo (ring.length : ℤ) 0 x y ring
    command 1 1 :: p.1 ++ writeGeometryGo p.2.1 p.2.2 rest

/-- `writeGeometry` on a LineString feature, as the stream of varint
values written. -/
def writeGeometryLS (rings : List (List (ℤ × ℤ))) : List ℤ :=
  writeGeometryGo 0 0 rings

/-- The plain zig-zag delta stream of a point list relative to a cursor. -/
def deltaStream (x y : ℤ) : List (ℤ × ℤ) → List ℤ
  | [] => []
  | p :: rest => zigzag (p.1 - x) :: zigzag (p.2 - y) :: deltaStream p.1 p.2 rest

/-- The claimed encoding of one ring of `n` points: `moveto 1`, the first
point's zig-zag deltas, then the `lineto (n-1)` command word and the
remaining deltas — the lineto word present for every ring, as the claim
states it. -/
def claimedRing (x y : ℤ) (ring : List (ℤ × ℤ)) : List ℤ :=
  match ring with
  | [] => [command 1 1, command 2 ((ring.length : ℤ) - 1)]
  | p :: rest =>
    [command 1 1, zigzag (p.1 - x), zigzag (p.2 - y),
      command 2 ((ring.length : ℤ) - 1)] ++ deltaStream p.1 p.2 rest

/-- The claimed LineString geometry stream: `claimedRing` per ring, the
cursor moving to the ring's last point. -/
def claimedGeometryGo (x y : ℤ) : List (List (ℤ × ℤ)) → List ℤ
  | [] => []
  | ring :: rest =>
    let c := (ring.getLast?).getD (x, y)
    claimedRing x y ring ++ claimedGeometryGo c.1 c.2 rest

/-- The claimed LineString geometry stream from the initial cursor. -/
def claimedGeometryLS (rings : List (List (ℤ × ℤ))) : List ℤ :=
  claimedGeometryGo 0 0 rings

/-- The amended encoding of one ring: as claimed for rings of at least two
points; for shorter rings the lineto command word is omitted (a one-point
ring writes only the moveto word and one delta pair; an empty ring only
the moveto word). -/
def amendedRing (x y : ℤ) (ring : List (ℤ × ℤ)) : List ℤ :=
  match ring with
  | [] => [command 1 1]
  | [p] => [command 1 1, zigzag (p.1 - x), zigzag (p.2 - y)]
  | p :: rest =>
    [command 1 1, zigzag (p.1 - x), zigzag (p.2 - y),
      command 2 ((ring.length : ℤ) - 1)] ++ deltaStream p.1 p.2 rest

/-- The amended LineString geometry stream: `amendedRing` per ring, the
cursor moving to the ring's last point. -/
def amendedGeometryGo (x y : ℤ) : List (List (ℤ × ℤ)) → List ℤ
  | [] => []
  | ring :: rest =>
    let c := (ring.getLast?).getD (x, y)
    amendedRing x y ring ++ amendedGeometryGo c.1 c.2 rest

/-- The amended LineString geometry stream from the initial cursor. -/
def amendedGeometryLS (rings : List (List (ℤ × ℤ))) : List ℤ :=
  amendedGeometryGo 0 0 rings

/-! ## cache.ts

`AsyncCache` is embedded as a state machine.  A `CacheItem` is a shared
mutable object: the `cancel` closure returned by `getCancelable` captures
it and keeps mutating it even after the map entry is replaced, so items
live in a heap (`store`) addressed by `ref`, and the `Map` holds
references.  The module-level tick `num`, and a counter of supplier
invocations (`calls`), are part of the state.  Firing of an entry's shared
cancel signal (`result.cancel()` / `abortController.abort()` in the
`part_017` variant) is reported as the `Bool` returned by `cancel`. -/

/-- The mutable fields of a `CacheItem` (its promise and cancel closure
are represented by the identity of the item itself). -/
structure CacheItem where
  lastUsed : ℕ
  waiting : ℤ
deriving DecidableEq, Repr, Inhabited

/-- The state of one `AsyncCache` plus the module-level tick counter. -/
structure CacheState (K : Type) where
  num : ℕ
  maxSize : ℕ
  nextRef : ℕ
  store : List (ℕ × CacheItem)
  items : List (K × ℕ)
  calls : ℕ

/-- A caller's view after `getCancelable`: which entry its cancel closure
captured, and the closure's own `canceled` flag. -/
structure CacheHandle (K : Type) where
  key : K
  ref : ℕ
  canceled : Bool
deriving DecidableEq, Repr

/-- The `forEach` scan of `prune`: track the first strictly smallest
`lastUsed` seen so far (starting from `Infinity`). -/
def pruneFold {K : Type} (store : List (ℕ × CacheItem)) :
    Option (K × ℕ) → List (K × ℕ) → Option (K × ℕ)
  | acc, [] => acc
  | acc, (k, ref) :: rest =>
    let lu := ((jmGet store ref).getD default).lastUsed
    match acc with
    | none => pruneFold store (some (k, lu)) rest
    | some mk =>
      if lu < mk.2 then pruneFold store (some (k, lu)) rest
      else pruneFold store (some mk) rest

/-- `AsyncCache.prune`: when over capacity, delete the entry with the
smallest `lastUsed`. -/
def prune {K : Type} [DecidableEq K] (s : CacheState K) : CacheState K :=
  if s.maxSize < s.items.length then
    match pruneFold s.store none s.items with
    | some mk => { s with items := jmDelete s.items mk.1 }
    | none => s
  else s

/-- `AsyncCache.getCancelable` (equivalently `AsyncCache.get` of the
`AbortController` variant): create the entry with `waiting = 1` and a
fresh tick on a miss — invoking the supplier — or bump tick and waiter
count on a hit. -/
def getCancelable {K : Type} [DecidableEq K] (k : K) (s : CacheState K) :
    CacheState K × CacheHandle K :=
  match jmGet s.items k with
  | none =>
    let s' : CacheState K := { s with
      num := s.num + 1,
      calls := s.calls + 1,
      nextRef := s.nextRef + 1,
      store := (s.nextRef, ⟨s.num + 1, 1⟩) :: s.store,
      items := jmSet s.items k s.nextRef }
    (prune s', ⟨k, s.nextRef, false⟩)
  | some ref =>
    let item := (jmGet s.store ref).getD default
    let s' : CacheState K := { s with
      num := s.num + 1,
      store := jmSet s.store ref ⟨s.num + 1, item.waiting + 1⟩ }
    (s', ⟨k, ref, false⟩)

/-- The cancel closure of one caller: idempotent through its own flag;
decrements the captured item's waiter count, and when it reaches zero
fires the item's shared cancel signal (the returned `Bool`) and deletes
the key from the map. -/
def cancel {K : Type} [DecidableEq K] (s : CacheState K) (h : CacheHandle K) :
    CacheState K × CacheHandle K × Bool :=
  if h.canceled then (s, h, false)
  else
    let item := (jmGet s.store h.ref).getD default
    let w := item.waiting - 1
    let s' : CacheState K := { s with
      store := jmSet s.store h.ref ⟨item.lastUsed, w⟩ }
    if w ≤ 0 then
      ({ s' with items := jmDelete s'.items h.key }, { h with canceled := true },
        true)
    else (s', { h with canceled := true }, false)

/-- `N` concurrent `getCancelable` calls for the same key, collecting the
handles. -/
def getMany {K : Type} [DecidableEq K] (k : K) :
    ℕ → CacheState K → CacheState K × List (CacheHandle K)
  | 0, s => (s, [])
  | n + 1, s =>
    let p := getCancelable k s
    let q := getMany k n p.1
    (q.1, p.2 :: q.2)

/-- Run a sequence of cancel closures, collecting whether each one fired
the shared signal. -/
def cancelSeq {K : Type} [DecidableEq K] :
    CacheState K → List (CacheHandle K) → CacheState K × List Bool
  | s, [] => (s, [])
  | s, h :: hs =>
    let p := cancel s h
    let q := cancelSeq p.1 hs
    (q.1, p.2.2 :: q.2)

/-- The well-formedness invariant tying the map to the heap: every map
entry's reference resolves in the store to an item whose tick is at most
the current `num`, and the next reference is fresh for the store. -/
def CacheWF {K : Type} (s : CacheState K) : Prop :=
  (∀ p ∈ s.items, ∃ it, jmGet s.store p.2 = some it ∧ it.lastUsed ≤ s.num) ∧
  jmGet s.store s.nextRef = none

/-! ## local-dem-manager.ts / dem-manager.ts (neighbor fetching) -/

/-- The source-tile coordinate that `fetchDem(z, x, y, options)` passes to
`fetchAndParseTile`: zoom `min(z - overzoom, maxzoom)`, coordinates
divided by `2^(z - zoom)` and floored. -/
def fetchDemRequest (maxzoom overzoom z x y : ℤ) : ℤ × ℤ × ℤ :=
  let zoom := min (z - overzoom) maxzoom
  let subZ := z - zoom
  let d : ℤ := 2 ^ subZ.toNat
  (zoom, x / d, y / d)

/-- The nine neighbor fetches launched by `fetchContourTile` at request
coordinates `(z, x, y)`: the double loop over `iy ∈ [y-1, y+1]`,
`ix ∈ [x-1, x+1]`, with `undefined` (here `none`) when `iy < 0` or
`iy ≥ 2^z`, and otherwise the source tile requested through
`fetchDem(z, (ix + 2^z) % 2^z, iy)`. -/
def fetchContourTileFetches (maxzoom overzoom z x y : ℤ) :
    List (Option (ℤ × ℤ × ℤ)) :=
  let mx : ℤ := 2 ^ z.toNat
  (intRange (y - 1) (y + 2)).flatMap fun iy =>
    (intRange (x - 1) (x + 2)).map fun ix =>
      if iy < 0 ∨ mx ≤ iy then none
      else some (fetchDemRequest maxzoom overzoom z ((ix + mx) % mx) iy)

/-- The claimed neighbor addressing: offsets applied at the source zoom
`src_z = min(z - overzoom, maxzoom)` to `(nx, ny) = (x/div, y/div)`, with
a neighbor missing exactly when `ny + dj` falls outside `[0, 2^src_z)`. -/
def claimedFetches (maxzoom overzoom z x y : ℤ) :
    List (Option (ℤ × ℤ × ℤ)) :=
  let srcZ := min (z - overzoom) maxzoom
  let d : ℤ := 2 ^ (z - srcZ).toNat
  let sz : ℤ := 2 ^ srcZ.toNat
  let nx := x / d
  let ny := y / d
  (intRange (-1) 2).flatMap fun dj =>
    (intRange (-1) 2).map fun di =>
      if ny + dj < 0 ∨ sz ≤ ny + dj then none
      else some (srcZ, (nx + di + sz) % sz, ny + dj)

/-- The amended neighbor addressing: offsets applied at the request zoom
`z`, a neighbor missing exactly when `y + dj` falls outside `[0, 2^z)`,
and each present neighbor resolved to the source tile
`(src_z, ⌊((x + di + 2^z) % 2^z) / div⌋, ⌊(y + dj) / div⌋)`. -/
def amendedFetches (maxzoom overzoom z x y : ℤ) :
    List (Option (ℤ × ℤ × ℤ)) :=
  let mx : ℤ := 2 ^ z.toNat
  let srcZ := min (z - overzoom) maxzoom
  let d : ℤ := 2 ^ (z - srcZ).toNat
  (intRange (-1) 2).flatMap fun dj =>
    (intRange (-1) 2).map fun di =>
      if y + dj < 0 ∨ mx ≤ y + dj then none
      else some (srcZ, ((x + di + mx) % mx) / d, (y + dj) / d)

/-! ## Observables and concrete inputs used by the theorems -/

/-- Observable form of `combineNeighbors` for concrete evaluation: the
stitched tile's sample, or `none` when the call throws or returns
`undefined`. -/
def combinedSample (ns : List (Option HeightTile)) (x y : ℤ) : Option Val :=
  match combineNeighbors ns with
  | .ok (some t) => some (t.get x y)
  | _ => none

/-- The claimed stitched sample for in-range coordinates: select the 3×3
grid cell by `((y+h)/h, (x+w)/w)` and sample that neighbor at the
wrapped-local coordinate `((x+w) % w, (y+h) % h)`; NaN when the neighbor
is missing. -/
def specCombinedSample (ns : List (Option HeightTile)) (w h x y : ℤ) :
    Val :=
  match ns.getD (3 * ((y + h) / h) + ((x + w) / w)).toNat none with
  | none => none
  | some g => g.get ((x + w) % w) ((y + h) % h)

/-- A neighbor tile samples NaN outside its own `w × h` domain. -/
def NaNOutside (w h : ℤ) (t : HeightTile) : Prop :=
  ∀ x y : ℤ, ¬(0 ≤ x ∧ x < w ∧ 0 ≤ y ∧ y < h) → t.get x y = none

/-- Copy a tracer state with its committed output rounded: the simulation
relation between a run committing with `round` and a raw run. -/
def withRounded (round : ℚ → ℚ) (st : IsoState) : IsoState :=
  { st with segments := roundOutput round st.segments }

/-- A concrete 2×2 DEM tile. -/
def exDem : DemTile := ⟨2, 2, [1, 2, 3, 4]⟩

/-- A 3×3 neighborhood consisting of nine copies of `exDem`. -/
def ex9 : List (Option HeightTile) :=
  List.replicate 9 (some (fromRawDem exDem))

/-- A small fully valid height tile for witnesses. -/
def wtile : HeightTile :=
  ⟨2, 2, fun x y =>
    if 0 ≤ x ∧ x < 2 ∧ 0 ≤ y ∧ y < 2 then some (((x + y : ℤ) : ℚ)) else none⟩

/-- A 3×3 height tile with a horizontal step from elevation 0 to 15: its
contour at the left buffer column has the float coordinate −1/2, a
rounding tie. -/
def cextile : HeightTile :=
  ⟨3, 3, fun _ y => if 1 ≤ y then some 15 else some 0⟩

/-! ## Supporting lemmas -/

/-- The executable `Rat.floor` agrees with the mathematical floor. -/
theorem ratFloor_eq (q : ℚ) : Rat.floor q = ⌊q⌋ := by
  rw [Rat.floor_def' q, Rat.floor_def]

/-- The executable `Rat.ceil` agrees with the mathematical ceiling. -/
theorem ratCeil_eq (q : ℚ) : Rat.ceil q = ⌈q⌉ := by
  by_cases h : q.den = 1
  · have hq : ((q.num : ℚ)) = q := (Rat.den_eq_one_iff q).mp h
    rw [Rat.ceil, if_pos h]
    conv_rhs => rw [← hq]
    rw [Int.ceil_intCast]
  · have hfl : Rat.ceil q = Rat.floor q + 1 := by
      rw [Rat.ceil, Rat.floor, if_neg h, if_neg h]
    have hne : ((⌊q⌋ : ℚ)) ≠ q := by
      intro he
      exact h (by rw [← he]; exact Rat.den_intCast ⌊q⌋)
    have hlt : ((⌊q⌋ : ℚ)) < q := lt_of_le_of_ne (Int.floor_le q) hne
    have h1 : ⌊q⌋ + 1 ≤ ⌈q⌉ := by
      have hc : ((⌊q⌋ : ℚ)) < (⌈q⌉ : ℚ) := lt_of_lt_of_le hlt (Int.le_ceil q)
      exact Int.add_one_le_iff.mpr (by exact_mod_cast hc)
    have h2 : ⌈q⌉ ≤ ⌊q⌋ + 1 := by
      apply Int.ceil_le.mpr
      push_cast
      exact le_of_lt (Int.lt_floor_add_one q)
    rw [hfl, ratFloor_eq, le_antisymm h2 h1]

theorem intRange_eq_nil {lo hi : ℤ} (h : hi ≤ lo) : intRange lo hi = [] := by
  unfold intRange
  have hz : (hi - lo).toNat = 0 := by omega
  rw [hz]
  rfl

theorem intRange_cons {lo hi : ℤ} (h : lo < hi) :
    intRange lo hi = lo :: intRange (lo + 1) hi := by
  unfold intRange
  have h1 : (hi - lo).toNat = (hi - (lo + 1)).toNat + 1 := by omega
  rw [h1, List.range_succ_eq_map]
  simp only [List.map_cons, Nat.cast_zero, add_zero, List.map_map]
  congr 1
  apply List.map_congr_left
  intro k _
  simp only [Function.comp_apply]
  push_cast
  ring

theorem mem_intRange {lo hi c : ℤ} (h : c ∈ intRange lo hi) :
    lo ≤ c ∧ c < hi := by
  unfold intRange at h
  simp only [List.mem_map, List.mem_range] at h
  obtain ⟨k, hk, rfl⟩ := h
  omega

/-! ### C1: the scan trace equals its row-major description -/

/-- The loop thresholds coincide with the claimed arithmetic progression
from `⌈mn/i⌉·i` to `⌊mx/i⌋·i`. -/
theorem thresholdList_eq (i mn mx : ℚ) :
    thresholdList i mn mx = specThresholds i mn mx := by
  unfold thresholdList specThresholds intRange
  rw [ratFloor_eq, ratCeil_eq]
  have hc : (⌊mx / i⌋ + 1 - ⌈mn / i⌉) = (⌊mx / i⌋ - ⌈mn / i⌉ + 1) := by ring
  rw [hc]
  simp only [List.map_map]
  apply List.map_congr_left
  intro k _
  simp only [Function.comp_apply]
  push_cast
  ring

/-- The state the scan carries entering a cell, when the previous sampled
column was `pc`. -/
def rowStateAt (tile : HeightTile) (r pc : ℤ) : RowState :=
  ⟨tile.get pc (r - 1), tile.get pc r,
    jsMin (tile.get pc (r - 1)) (tile.get pc r),
    jsMax (tile.get pc (r - 1)) (tile.get pc r)⟩

/-- One loop iteration from a coherent carried state produces the directly
described cell event and the coherent state for the next column. -/
theorem cellEvent_eq (tile : HeightTile) (interval : ℚ) (r c pc : ℤ) :
    cellEvent tile interval r c (rowStateAt tile r pc) =
      (specCellEventAt tile interval r c pc, rowStateAt tile r c) := by
  unfold cellEvent specCellEventAt rowStateAt
  rcases htl : tile.get pc (r - 1) with _ | a <;>
    rcases htr : tile.get c (r - 1) with _ | b <;>
    rcases hbl : tile.get pc r with _ | d <;>
    rcases hbr : tile.get c r with _ | e <;>
    simp [jsMin, jsMax, specSteps, thresholdList_eq]

theorem intRange_shift (lo hi : ℤ) :
    intRange lo (lo + ((hi - lo).toNat : ℤ)) = intRange lo hi := by
  have ht : (lo + ((hi - lo).toNat : ℤ) - lo).toNat = (hi - lo).toNat := by
    omega
  rw [intRange, intRange, ht]

/-- The inner column loop over `n` consecutive columns starting at `c0`,
entered with the carried state of column `pc`, visits the columns in order
and produces the directly described events; every cell after the first
reads its left corners from its own previous column. -/
theorem scanRowGo_eq (tile : HeightTile) (interval : ℚ) (r : ℤ) :
    ∀ (n : ℕ) (c0 pc : ℤ),
      scanRowGo tile interval r (intRange c0 (c0 + (n : ℤ)))
          (rowStateAt tile r pc) =
        (intRange c0 (c0 + (n : ℤ))).map fun c =>
          specCellEventAt tile interval r c (if c = c0 then pc else c - 1) := by
  intro n
  induction n with
  | zero =>
    intro c0 pc
    rw [intRange_eq_nil (by omega)]
    rfl
  | succ m ih =>
    intro c0 pc
    have hcons : intRange c0 (c0 + ((m : ℤ) + 1)) =
        c0 :: intRange (c0 + 1) (c0 + ((m : ℤ) + 1)) :=
      intRange_cons (by omega)
    have harg : c0 + ((m + 1 : ℕ) : ℤ) = c0 + ((m : ℤ) + 1) := by push_cast; ring
    rw [harg, hcons]
    have hshift : c0 + ((m : ℤ) + 1) = (c0 + 1) + (m : ℤ) := by ring
    simp only [List.map_cons, scanRowGo, cellEvent_eq, if_pos rfl, if_true]
    congr 1
    rw [hshift, ih (c0 + 1) c0]
    apply List.map_congr_left
    intro c hc
    have hbound := mem_intRange hc
    have hne : ¬(c = c0) := by omega
    rw [if_neg hne]
    by_cases hc1 : c = c0 + 1
    · rw [if_pos hc1, hc1]
      norm_num
    · rw [if_neg hc1]

/-- One outer-loop iteration: the seeded scan of a row equals the direct
description, the first column reading its left corners from column 0. -/
theorem scanRow_eq (tile : HeightTile) (interval : ℚ) (buffer r : ℤ) :
    scanRow tile interval buffer r =
      (intRange (1 - buffer) (tile.width + buffer)).map fun c =>
        specCellEventAt tile interval r c
          (if c = 1 - buffer then 0 else c - 1) := by
  unfold scanRow
  rw [← intRange_shift (1 - buffer) (tile.width + buffer)]
  exact scanRowGo_eq tile interval r
    ((tile.width + buffer - (1 - buffer)).toNat) (1 - buffer) 0

/-- C1: for every height tile, positive interval, and buffer, the isoline
scan visits each cell in row-major order, skips a cell exactly when one of
its four corner samples is NaN, and processes for a non-skipped cell
exactly the thresholds `⌈min/i⌉·i, …, ⌊max/i⌋·i` over the min and max of
the four corners, classifying each threshold by the 4-bit case index
`(tl>t ? 8:0) | (tr>t ? 4:0) | (br>t ? 2:0) | (bl>t ? 1:0)` whose
case-table entry lists the emitted segments.  (The extent parameter plays
no part in the scan.) -/
theorem isolines_scan_trace_spec (tile : HeightTile) (interval : ℚ)
    (buffer : ℤ) (_hpos : 0 < interval) :
    scanTrace tile interval buffer = specTrace tile interval buffer := by
  unfold scanTrace specTrace
  have hfun : scanRow tile interval buffer = fun r =>
      (intRange (1 - buffer) (tile.width + buffer)).map fun c =>
        specCellEventAt tile interval r c
          (if c = 1 - buffer then 0 else c - 1) :=
    funext (scanRow_eq tile interval buffer)
  rw [hfun]

/-- Witness for C1 at a concrete tile and interval. -/
theorem isolines_scan_trace_spec_witness :
    0 < (10 : ℚ) ∧ scanTrace wtile 10 1 = specTrace wtile 10 1 :=
  ⟨by decide, isolines_scan_trace_spec wtile 10 1 (by decide)⟩

/-! ### C4: output rounding happens once, at commit time -/

theorem jmGet_mapVal {α β γ : Type} [DecidableEq α] (g : β → γ)
    (m : List (α × β)) (k : α) :
    jmGet (m.map fun p => (p.1, g p.2)) k = (jmGet m k).map g := by
  induction m with
  | nil => rfl
  | cons p rest ih =>
    by_cases h : p.1 = k <;> simp [jmGet, h, ih]

theorem jmSet_mapVal {α β γ : Type} [DecidableEq α] (g : β → γ)
    (m : List (α × β)) (k : α) (v : β) :
    jmSet (m.map fun p => (p.1, g p.2)) k (g v) =
      (jmSet m k v).map fun p => (p.1, g p.2) := by
  induction m with
  | nil => rfl
  | cons p rest ih =>
    by_cases h : p.1 = k <;> simp [jmSet, h, ih]

/-- Committing one line into the rounded output equals committing the raw
line and rounding afterwards. -/
theorem commitLine_round (round : ℚ → ℚ) (segs : List (ℚ × List (List ℚ)))
    (t : ℚ) (pts : List ℚ) :
    jmSet (roundOutput round segs) t
        ((jmGet (roundOutput round segs) t).getD [] ++ [pts.map round]) =
      roundOutput round
        (jmSet segs t ((jmGet segs t).getD [] ++ [pts.map id])) := by
  have hval : (jmGet (roundOutput round segs) t).getD [] ++ [pts.map round] =
      (fun (v : List (List ℚ)) => v.map (List.map round))
        ((jmGet segs t).getD [] ++ [pts.map id]) := by
    unfold roundOutput
    rw [jmGet_mapVal]
    rcases jmGet segs t with _ | l <;> simp
  rw [hval]
  unfold roundOutput
  exact jmSet_mapVal _ segs t _

/-- One segment-processing step commutes with rounding the committed
output: the fragment maps and heap do not depend on the rounding function,
and the committed lines are the raw lines mapped through it. -/
theorem processSegment_round (round : ℚ → ℚ) (mult : ℚ) (width r c : ℤ)
    (a b d e t : ℚ) (seg : CasePoint × CasePoint) (st : IsoState) :
    processSegment round mult width r c a b d e t seg
        (withRounded round st) =
      withRounded round (processSegment id mult width r c a b d e t seg st) := by
  unfold processSegment
  rcases hf : jmGet ((jmGet st.byEndL t).getD []) (segIndex width c r seg.1)
    with _ | fid <;>
    rcases hg : jmGet ((jmGet st.byStartL t).getD [])
      (segIndex width c r seg.2) with _ | gid <;>
    simp only [withRounded, hf, hg]
  by_cases hfg : fid = gid
  · simp only [if_pos hfg]
    split
    · rfl
    · rw [commitLine_round]
  · simp only [if_neg hfg]

theorem foldl_commute {α σ : Type} (g : σ → σ) (f₁ f₂ : σ → α → σ)
    (hcomm : ∀ s x, f₁ (g s) x = g (f₂ s x)) :
    ∀ (l : List α) (s : σ), l.foldl f₁ (g s) = g (l.foldl f₂ s) := by
  intro l
  induction l with
  | nil => intro s; rfl
  | cons x xs ih =>
    intro s
    rw [List.foldl_cons, List.foldl_cons, hcomm, ih]

/-- Processing one cell event commutes with rounding the committed
output. -/
theorem processEvent_round (round : ℚ → ℚ) (mult : ℚ) (width : ℤ)
    (ev : CellEvent) (st : IsoState) :
    processEvent round mult width ev (withRounded round st) =
      withRounded round (processEvent id mult width ev st) := by
  unfold processEvent
  rcases ev with ⟨r, c, tld, trd, bld, brd, steps⟩
  rcases steps with _ | steps <;>
    rcases tld with _ | a <;> rcases trd with _ | b <;>
    rcases bld with _ | d <;> rcases brd with _ | e <;>
    try rfl
  exact foldl_commute (withRounded round) _ _
    (fun s step => foldl_commute (withRounded round) _ _
      (fun s seg => processSegment_round round mult width r c a b d e
        step.threshold seg s) step.segments s)
    steps st

/-- The final commit sweep commutes with rounding. -/
theorem finalizeLevels_round (round : ℚ → ℚ) (st : IsoState) :
    finalizeLevels round (withRounded round st) =
      roundOutput round (finalizeLevels id st) := by
  unfold finalizeLevels withRounded
  show st.byStartL.foldl (fun segs p =>
      p.2.foldl (fun segs q =>
        let f := (jmGet st.frags q.2).getD default
        if f.points.length < 2 then segs
        else jmSet segs p.1 ((jmGet segs p.1).getD [] ++ [f.points.map round]))
        segs) (roundOutput round st.segments) =
    roundOutput round (st.byStartL.foldl (fun segs p =>
      p.2.foldl (fun segs q =>
        let f := (jmGet st.frags q.2).getD default
        if f.points.length < 2 then segs
        else jmSet segs p.1 ((jmGet segs p.1).getD [] ++ [f.points.map id]))
        segs) st.segments)
  apply foldl_commute (roundOutput round)
  intro s p
  apply foldl_commute (roundOutput round)
  intro s2 q
  simp only []
  split
  · rfl
  · rw [commitLine_round]

/-- C4 (amended): every coordinate of the tracer output is the rounding of
the float coordinate produced by edge interpolation and fragment assembly,
applied exactly once when a fragment is committed — for any rounding
function, in particular the shipped `Math.round`.  No fragment-assembly
step rounds: the raw run (`id`) and the rounded run share all fragment
state, and the outputs differ only by the final per-coordinate map. -/
theorem generateIsolines_round_once (round : ℚ → ℚ) (interval : ℚ)
    (tile : HeightTile) (extent : ℚ) (buffer : ℤ) :
    generateIsolinesWith round interval tile extent buffer =
      roundOutput round (generateIsolinesWith id interval tile extent buffer) := by
  unfold generateIsolinesWith
  by_cases h : interval = 0
  · simp [h, roundOutput]
  · simp only [if_neg h]
    have hinit : (⟨0, [], [], [], []⟩ : IsoState) =
        withRounded round ⟨0, [], [], [], []⟩ := rfl
    rw [hinit,
      foldl_commute (withRounded round) _ _
        (fun s ev => processEvent_round round
          (extent / ((tile.width : ℚ) - 1)) tile.width ev s)
        (scanTrace tile interval buffer),
      finalizeLevels_round, ← hinit]

set_option maxRecDepth 100000 in
unseal Rat.mul Rat.add Rat.sub Rat.inv in
/-- C4 counterexample: on the 3×3 step tile the tracer commits a line
whose raw left-buffer coordinate is the tie −1/2; the shipped `Math.round`
yields 0 where ties-away-from-zero yields −1, so the output is not the
ties-away rounding of the raw assembled coordinates. -/
theorem rounding_claim_counterexample :
    generateIsolines 10 cextile 1 1 ≠
      roundOutput roundTiesAway (generateIsolinesWith id 10 cextile 1 1) := by
  decide

/-! ### C2: neighbor fetch addressing -/

/-- C2 counterexample: at request `(z, x, y) = (1, 1, 1)` with
`overzoom = 1` and `maxzoom = 0`, the code treats the north neighbor row
`iy = 0` as present (the bound is `2^z` at the request zoom) and fetches
source tile `(0, 0, 0)` for it, whereas the claimed addressing at
`src_z = 0` marks the north neighbor missing (`ny - 1 = -1 < 0`) and the
south row present/absent differently. -/
theorem neighbor_fetch_counterexample :
    fetchContourTileFetches 0 1 1 1 1 ≠ claimedFetches 0 1 1 1 1 := by
  decide

/-- C2 (amended): the pipeline launches the nine neighbor fetches
addressed at the request zoom `z`: for `(di, dj) ∈ {−1,0,1}²` the neighbor
is missing exactly when `y+dj < 0` or `y+dj ≥ 2^z`, and otherwise the
request wraps `x+di` modulo `2^z` and resolves through `fetchDem` to the
source tile `(src_z, ⌊wrapped/div⌋, ⌊(y+dj)/div⌋)` with
`src_z = min(z − overzoom, maxzoom)` and `div = 2^(z−src_z)`. -/
theorem neighbor_fetch_amended (maxzoom overzoom z x y : ℤ) :
    fetchContourTileFetches maxzoom overzoom z x y =
      amendedFetches maxzoom overzoom z x y := by
  unfold fetchContourTileFetches amendedFetches fetchDemRequest
  have h1 : intRange (y - 1) (y + 2) = [y - 1, y, y + 1] := by
    rw [intRange_cons (by omega), intRange_cons (by omega),
      intRange_cons (by omega), intRange_eq_nil (by omega)]
    norm_num
  have h2 : intRange (x - 1) (x + 2) = [x - 1, x, x + 1] := by
    rw [intRange_cons (by omega), intRange_cons (by omega),
      intRange_cons (by omega), intRange_eq_nil (by omega)]
    norm_num
  have h3 : intRange (-1) 2 = [-1, 0, 1] := by decide
  rw [h1, h2, h3]
  simp only [List.flatMap_cons, List.flatMap_nil, List.map_cons, List.map_nil,
    List.append_nil, List.cons_append, List.nil_append]
  ring_nf

/-! ### C10: combineNeighbors arity and missing center -/

/-- C10: `combineNeighbors` throws exactly when its argument does not have
9 entries; given 9 entries with the center (index 4) missing it returns
`undefined` (a success), independent of the other neighbor tiles — so no
neighbor is consulted. -/
theorem combine_neighbors_arity (ns : List (Option HeightTile)) :
    ((∃ msg, combineNeighbors ns = .error msg) ↔ ns.length ≠ 9) ∧
    (ns.length = 9 → ns.getD 4 none = none → combineNeighbors ns = .ok none) := by
  constructor
  · constructor
    · rintro ⟨msg, hmsg⟩ hlen
      unfold combineNeighbors at hmsg
      rw [if_neg (by simp [hlen])] at hmsg
      split at hmsg <;> simp at hmsg
    · intro hne
      exact ⟨_, by unfold combineNeighbors; rw [if_pos hne]⟩
  · intro hlen hcen
    unfold combineNeighbors
    rw [if_neg (by simp [hlen]), hcen]

/-- Witness for C10: nine missing neighbors yield `undefined` without an
error. -/
theorem combine_neighbors_arity_witness :
    combineNeighbors (List.replicate 9 none) = .ok none :=
  (combine_neighbors_arity (List.replicate 9 none)).2 (by decide) rfl

/-! ### C7: fromRawDem bounds and validity -/

/-- C7 counterexample: on the 2×2 tile with data `[1, 2, 3, 4]`, sampling
at `x = -1, y = 1` — out of range per the claim, which predicts NaN —
returns the value 2 (the flat index `1·2 + (−1) = 1` lands inside the
array). -/
theorem from_raw_dem_counterexample :
    (fromRawDem exDem).get (-1) 1 = some 2 ∧ some (2 : ℚ) ≠ (none : Val) :=
  ⟨by decide, by decide⟩

/-- C7 (amended): `fromRawDem d` samples `d.data[y·w + x]` whenever that
value exists and lies within `[−12000, 9000]`, and NaN otherwise — with
the bounds check on the flattened index `y·w + x` only, so out-of-range
`(x, y)` whose flat index still lands inside the array read a wrapped
entry instead of NaN. -/
theorem from_raw_dem_amended (d : DemTile) (x y : ℤ) (v : ℚ) :
    (fromRawDem d).get x y = some v ↔
      (0 ≤ y * d.width + x ∧
        d.data.get? (y * d.width + x).toNat = some v ∧
        -12000 ≤ v ∧ v ≤ 9000) := by
  unfold fromRawDem
  by_cases h0 : 0 ≤ y * d.width + x
  · simp only [h0, if_true, true_and]
    cases hget : d.data.get? (y * d.width + x).toNat with
    | none => simp
    | some w =>
      by_cases hv : defaultIsValid w = true
      · have hv' : -12000 ≤ w ∧ w ≤ 9000 := by
          simpa [defaultIsValid] using hv
        simp only [hv, if_true, Option.some.injEq]
        constructor
        · rintro rfl
          exact ⟨rfl, hv'⟩
        · rintro ⟨rfl, _⟩
          rfl
      · have hv' : ¬(-12000 ≤ w ∧ w ≤ 9000) := by
          simpa [defaultIsValid] using hv
        simp only [hv, if_false, Option.some.injEq]
        constructor
        · rintro ⟨⟩
        · rintro ⟨rfl, hw⟩
          exact absurd hw hv'
  · simp only [h0, if_false]
    simp [h0]

/-- Witness for C7 (amended): an in-range valid sample round-trips. -/
theorem from_raw_dem_amended_witness :
    (fromRawDem exDem).get 1 1 = some 4 ∧
      (0 ≤ 1 * exDem.width + 1 ∧
        exDem.data.get? ((1 : ℤ) * exDem.width + 1).toNat = some 4 ∧
        -12000 ≤ (4 : ℚ) ∧ (4 : ℚ) ≤ 9000) :=
  ⟨by decide, (from_raw_dem_amended exDem 1 1 4).mp (by decide)⟩

/-! ### C6: the elevation decoding formulas -/

theorem decodeLoop_get (e : Encoding) (j : ℕ) : ∀ input : List ℚ,
    (decodeLoop e input).get? j =
      if 4 * j + 3 < input.length then
        some (pixelDecoder e (input.getD (4 * j) 0) (input.getD (4 * j + 1) 0)
          (input.getD (4 * j + 2) 0))
      else none := by
  induction j with
  | zero =>
    intro input
    rcases input with _ | ⟨r, input⟩
    · simp [decodeLoop]
    rcases input with _ | ⟨g, input⟩
    · simp [decodeLoop]
    rcases input with _ | ⟨b, input⟩
    · simp [decodeLoop]
    rcases input with _ | ⟨a, rest⟩
    · simp [decodeLoop]
    · simp [decodeLoop, List.getD]
  | succ j ih =>
    intro input
    rcases input with _ | ⟨r, input⟩
    · simp only [decodeLoop, List.get?_nil]
      rw [if_neg (by simp)]
    rcases input with _ | ⟨g, input⟩
    · simp only [decodeLoop, List.get?_nil]
      rw [if_neg (by simp)]
    rcases input with _ | ⟨b, input⟩
    · simp only [decodeLoop, List.get?_nil]
      rw [if_neg (by simp)]
    rcases input with _ | ⟨a, rest⟩
    · simp only [decodeLoop, List.get?_nil]
      rw [if_neg (by simp)]
    · show (pixelDecoder e r g b :: decodeLoop e rest).get? (j + 1) = _
      rw [List.get?_cons_succ, ih rest]
      have hgd : ∀ m : ℕ,
          (r :: g :: b :: a :: rest).getD (4 * (j + 1) + m) 0 =
            rest.getD (4 * j + m) 0 := by
        intro m
        have h4 : 4 * (j + 1) + m = (((4 * j + m) + 1) + 1) + 1 + 1 := by ring
        rw [h4, List.getD_cons_succ, List.getD_cons_succ, List.getD_cons_succ,
          List.getD_cons_succ]
      have h0 : (r :: g :: b :: a :: rest).getD (4 * (j + 1)) 0 =
          rest.getD (4 * j) 0 := by
        have := hgd 0
        simpa using this
      refine if_congr (by simp; omega) ?_ rfl
      rw [h0, hgd 1, hgd 2]

/-- C6: for every RGBA raster of length `4·w·h` and each encoding, the
decoder produces a `w × h` tile whose pixel `i` has elevation
`−10000 + (R·65536 + G·256 + B)·0.1` (mapbox) or
`R·256 + G + B/256 − 32768` (terrarium), ignoring the alpha byte. -/
theorem decode_parsed_image_formula (w h : ℕ) (e : Encoding)
    (input : List ℚ) (hlen : input.length = 4 * (w * h)) :
    (decodeParsedImage w h e input).width = w ∧
    (decodeParsedImage w h e input).height = h ∧
    ∀ i : ℕ, i < w * h →
      (decodeParsedImage w h e input).data.get? i = some (
        match e with
        | .mapbox => -10000 + ((input.getD (4 * i) 0) * 65536 +
            (input.getD (4 * i + 1) 0) * 256 + input.getD (4 * i + 2) 0) *
            (1/10)
        | .terrarium => (input.getD (4 * i) 0) * 256 +
            input.getD (4 * i + 1) 0 +
            (input.getD (4 * i + 2) 0) / 256 - 32768) := by
  refine ⟨rfl, rfl, ?_⟩
  intro i hi
  unfold decodeParsedImage
  simp only []
  rw [List.get?_map, List.get?_range hi]
  have hg := decodeLoop_get e i input
  rw [if_pos (by omega)] at hg
  rw [Option.map_some']
  rw [show (decodeLoop e input).getD i 0 =
    ((decodeLoop e input).get? i).getD 0 from rfl, hg]
  cases e <;> simp only [pixelDecoder, Option.getD_some, Option.some.injEq] <;>
    ring

/-- Witness for C6 at one concrete 1×1 raster. -/
theorem decode_parsed_image_formula_witness :
    ([(1 : ℚ), 2, 3, 4].length = 4 * (1 * 1)) ∧
      (decodeParsedImage 1 1 .terrarium [1, 2, 3, 4]).data.get? 0 =
        some ((1 : ℚ) * 256 + 2 + 3 / 256 - 32768) := by
  refine ⟨by decide, ?_⟩
  have h := (decode_parsed_image_formula 1 1 .terrarium [1, 2, 3, 4]
    (by decide)).2.2 0 (by decide)
  simpa using h

/-! ### C9: LineString geometry command stream -/

theorem getLast?_cons_getD {α : Type} (p : α) (d : α) :
    ∀ l : List α, ((p :: l).getLast?).getD d = (l.getLast?).getD p := by
  intro l
  induction l generalizing p d with
  | nil => rfl
  | cons q l2 ih =>
    rw [List.getLast?_cons_cons, ih q d, ih q p]

/-- Past index 1, the ring loop writes the plain delta stream and leaves
the cursor at the last point. -/
theorem writeRingGo_high (lc : ℤ) :
    ∀ (pts : List (ℤ × ℤ)) (i : ℕ) (x y : ℤ), 2 ≤ i →
      (writeRingGo lc i x y pts).1 = deltaStream x y pts ∧
      (writeRingGo lc i x y pts).2 = (pts.getLast?).getD (x, y) := by
  intro pts
  induction pts with
  | nil => intro i x y _; exact ⟨rfl, rfl⟩
  | cons p rest ih =>
    intro i x y hi
    have hne : ¬(i = 1) := by omega
    obtain ⟨ih1, ih2⟩ := ih (i + 1) p.1 p.2 (by omega)
    have hx : x + (p.1 - x) = p.1 := by ring
    have hy : y + (p.2 - y) = p.2 := by ring
    constructor
    · simp only [writeRingGo, if_neg hne, List.nil_append, hx, hy, ih1]
      rfl
    · simp only [writeRingGo, if_neg hne, hx, hy, ih2]
      rw [getLast?_cons_getD]

/-- One full ring of `writeGeometry` produces the amended encoding and
moves the cursor to the ring's last point. -/
theorem writeRing_amended (x y : ℤ) (ring : List (ℤ × ℤ)) :
    command 1 1 :: (writeRingGo (ring.length : ℤ) 0 x y ring).1 =
      amendedRing x y ring ∧
    (writeRingGo (ring.length : ℤ) 0 x y ring).2 =
      (ring.getLast?).getD (x, y) := by
  rcases ring with _ | ⟨p, rest⟩
  · exact ⟨rfl, rfl⟩
  rcases rest with _ | ⟨q, rest2⟩
  · constructor
    · simp [writeRingGo, amendedRing]
    · simp [writeRingGo]
  · have hx : x + (p.1 - x) = p.1 := by ring
    have hy : y + (p.2 - y) = p.2 := by ring
    have hx2 : p.1 + (q.1 - p.1) = q.1 := by ring
    have hy2 : p.2 + (q.2 - p.2) = q.2 := by ring
    obtain ⟨h1, h2⟩ :=
      writeRingGo_high ((p :: q :: rest2).length : ℤ) rest2 2 q.1 q.2
        (le_refl 2)
    constructor
    · simp only [writeRingGo, if_neg (by norm_num : ¬(0 = 1)), if_pos rfl,
        hx, hy, hx2, hy2, h1, List.nil_append, List.cons_append,
        List.singleton_append]
      simp [amendedRing, deltaStream]
    · simp only [writeRingGo, if_neg (by norm_num : ¬(0 = 1)), if_pos rfl,
        hx, hy, hx2, hy2, h2]
      rw [getLast?_cons_getD, getLast?_cons_getD]

/-- The ring loop with a threaded cursor equals the amended description. -/
theorem writeGeometryGo_amended :
    ∀ (rings : List (List (ℤ × ℤ))) (x y : ℤ),
      writeGeometryGo x y rings = amendedGeometryGo x y rings := by
  intro rings
  induction rings with
  | nil => intro x y; rfl
  | cons ring rest ih =>
    intro x y
    obtain ⟨h1, h2⟩ := writeRing_amended x y ring
    simp only [writeGeometryGo, amendedGeometryGo]
    rw [← h1, h2, ih]

/-- C9 (amended): the LineString geometry stream is, per ring, `moveto 1`
with the first point's zig-zag deltas, then — for rings of at least two
points — `lineto (n−1)` with the remaining deltas, the cursor persisting
across rings; a one-point ring omits the lineto command word and an empty
ring writes only the moveto word. -/
theorem write_geometry_amended (rings : List (List (ℤ × ℤ))) :
    writeGeometryLS rings = amendedGeometryLS rings :=
  writeGeometryGo_amended rings 0 0

/-- C9 counterexample: a single-point ring is encoded without the claimed
`lineto 0` command word. -/
theorem write_geometry_counterexample :
    writeGeometryLS [[(3, 4)]] ≠ claimedGeometryLS [[(3, 4)]] := by decide

/-! ### C3: stitched sampling -/

theorem int_ediv_eq_of_bounds (h a k : ℤ) (hh : 0 < h) (h1 : k * h ≤ a)
    (h2 : a < (k + 1) * h) : a / h = k := by
  have hkh : (k + 1) * h = k * h + h := by ring
  have hr0 : 0 ≤ a - k * h := by linarith
  have hrh : a - k * h < h := by linarith [hkh ▸ h2]
  have hsplit : a = (a - k * h) + k * h := by ring
  rw [hsplit, Int.add_mul_ediv_right _ _ (by omega : h ≠ 0),
    Int.ediv_eq_zero_of_lt hr0 hrh, zero_add]

theorem int_emod_eq_of_bounds (h a k : ℤ) (hh : 0 < h) (h1 : k * h ≤ a)
    (h2 : a < (k + 1) * h) : a % h = a - k * h := by
  rw [Int.emod_def, int_ediv_eq_of_bounds h a k hh h1 h2]
  ring

/-- The row-selection of `combineNeighbors` on an in-range coordinate
equals the claimed grid row `(y+h)/h` with wrapped-local `(y+h) % h`. -/
theorem rowSelect (h y : ℤ) (hh : 0 < h) (h1 : -h ≤ y) (h2 : y < 2 * h) :
    (if y < 0 then ((0 : ℕ), y + h)
     else if y < h then (3, y) else (6, y - h)) =
      ((3 * ((y + h) / h)).toNat, (y + h) % h) := by
  by_cases hy0 : y < 0
  · have hq : (y + h) / h = 0 :=
      int_ediv_eq_of_bounds h (y + h) 0 hh (by linarith) (by linarith)
    have hm : (y + h) % h = y + h := by
      rw [int_emod_eq_of_bounds h (y + h) 0 hh (by linarith) (by linarith)]
      ring
    rw [if_pos hy0, hq, hm]
    rfl
  · by_cases hyh : y < h
    · have hy0' := not_lt.mp hy0
      have hq : (y + h) / h = 1 :=
        int_ediv_eq_of_bounds h (y + h) 1 hh (by linarith) (by linarith)
      have hm : (y + h) % h = y := by
        rw [int_emod_eq_of_bounds h (y + h) 1 hh (by linarith) (by linarith)]
        ring
      rw [if_neg hy0, if_pos hyh, hq, hm]
      rfl
    · have hyh' := not_lt.mp hyh
      have hq : (y + h) / h = 2 :=
        int_ediv_eq_of_bounds h (y + h) 2 hh (by linarith) (by linarith)
      have hm : (y + h) % h = y - h := by
        rw [int_emod_eq_of_bounds h (y + h) 2 hh (by linarith) (by linarith)]
        ring
      rw [if_neg hy0, if_neg hyh, hq, hm]
      rfl

/-- The column-selection of `combineNeighbors` on an in-range coordinate
equals the claimed grid column `(x+w)/w` with wrapped-local `(x+w) % w`. -/
theorem colSelect (w x : ℤ) (hw : 0 < w) (h1 : -w ≤ x) (h2 : x < 2 * w) :
    (if x < 0 then ((0 : ℕ), x + w)
     else if x < w then (1, x) else (2, x - w)) =
      (((x + w) / w).toNat, (x + w) % w) := by
  by_cases hx0 : x < 0
  · have hq : (x + w) / w = 0 :=
      int_ediv_eq_of_bounds w (x + w) 0 hw (by linarith) (by linarith)
    have hm : (x + w) % w = x + w := by
      rw [int_emod_eq_of_bounds w (x + w) 0 hw (by linarith) (by linarith)]
      ring
    rw [if_pos hx0, hq, hm]
    rfl
  · by_cases hxw : x < w
    · have hx0' := not_lt.mp hx0
      have hq : (x + w) / w = 1 :=
        int_ediv_eq_of_bounds w (x + w) 1 hw (by linarith) (by linarith)
      have hm : (x + w) % w = x := by
        rw [int_emod_eq_of_bounds w (x + w) 1 hw (by linarith) (by linarith)]
        ring
      rw [if_neg hx0, if_pos hxw, hq, hm]
      rfl
    · have hxw' := not_lt.mp hxw
      have hq : (x + w) / w = 2 :=
        int_ediv_eq_of_bounds w (x + w) 2 hw (by linarith) (by linarith)
      have hm : (x + w) % w = x - w := by
        rw [int_emod_eq_of_bounds w (x + w) 2 hw (by linarith) (by linarith)]
        ring
      rw [if_neg hx0, if_neg hxw, hq, hm]
      rfl

theorem getD_some_mem {α : Type} {l : List (Option α)} {i : ℕ} {g : α}
    (h : l.getD i none = some g) : some g ∈ l := by
  by_cases hi : i < l.length
  · rw [List.getD_eq_getElem l none hi] at h
    exact h ▸ List.getElem_mem hi
  · rw [List.getD_eq_default l none (by omega)] at h
    exact absurd h (by simp)

/-- Sampling the selected neighbor at a coordinate outside its own domain
yields NaN, whether the neighbor is present (and NaN-outside) or
missing. -/
theorem part2_step (ns : List (Option HeightTile)) (w h : ℤ) (idx : ℕ)
    (lx ly : ℤ)
    (hnb : ∀ g : HeightTile, ns.getD idx none = some g → NaNOutside w h g)
    (hviol : ¬(0 ≤ lx ∧ lx < w ∧ 0 ≤ ly ∧ ly < h)) :
    (match ns.getD idx none with
     | none => none
     | some grid => grid.get lx ly) = none := by
  rcases hg : ns.getD idx none with _ | g
  · rfl
  · exact (hnb g hg) lx ly hviol

/-- C3 (amended): on a 3×3 neighborhood with the center present, the
stitched tile has the center's size; sampling at any `(x, y)` with
`x ∈ [−w, 2w)`, `y ∈ [−h, 2h)` returns the selected neighbor's sample at
the wrapped-local coordinate `((x+w) % w, (y+h) % h)` (NaN when that
neighbor is missing); and outside that window the sample delegates to an
outer neighbor at a coordinate beyond its own `w × h` domain, so it is
NaN provided every present neighbor samples NaN outside its own
domain (which the raw claim's unconditional NaN would require). -/
theorem combine_neighbors_sample_amended
    (ns : List (Option HeightTile)) (c t : HeightTile)
    (hcen : ns.getD 4 none = some c)
    (hcomb : combineNeighbors ns = .ok (some t))
    (hw : 0 < c.width) (hh : 0 < c.height) :
    t.width = c.width ∧ t.height = c.height ∧
    (∀ x y : ℤ,
      -c.width ≤ x → x < 2 * c.width → -c.height ≤ y → y < 2 * c.height →
      t.get x y = specCombinedSample ns c.width c.height x y) ∧
    ((∀ g ∈ ns, ∀ gt : HeightTile, g = some gt →
        NaNOutside c.width c.height gt) →
      ∀ x y : ℤ,
        ¬(-c.width ≤ x ∧ x < 2 * c.width ∧
          -c.height ≤ y ∧ y < 2 * c.height) →
        t.get x y = none) := by
  have hlen : ¬(ns.length ≠ 9) := by
    intro hne
    unfold combineNeighbors at hcomb
    rw [if_pos hne] at hcomb
    exact absurd hcomb (by simp)
  unfold combineNeighbors at hcomb
  rw [if_neg hlen, hcen] at hcomb
  have hrec := Option.some.inj (Except.ok.inj hcomb)
  subst hrec
  refine ⟨rfl, rfl, ?_, ?_⟩
  · intro x y hx1 hx2 hy1 hy2
    show (let row : ℕ × ℤ :=
        if y < 0 then (0, y + c.height)
        else if y < c.height then (3, y) else (6, y - c.height)
      let col : ℕ × ℤ :=
        if x < 0 then (0, x + c.width)
        else if x < c.width then (1, x) else (2, x - c.width)
      match ns.getD (row.1 + col.1) none with
      | none => none
      | some grid => grid.get col.2 row.2) =
      specCombinedSample ns c.width c.height x y
    rw [rowSelect c.height y hh hy1 hy2, colSelect c.width x hw hx1 hx2]
    have hqy : 0 ≤ (y + c.height) / c.height :=
      Int.ediv_nonneg (by linarith) (by linarith)
    have hqx : 0 ≤ (x + c.width) / c.width :=
      Int.ediv_nonneg (by linarith) (by linarith)
    show (match ns.getD ((3 * ((y + c.height) / c.height)).toNat +
        ((x + c.width) / c.width).toNat) none with
      | none => none
      | some grid => grid.get ((x + c.width) % c.width)
          ((y + c.height) % c.height)) = _
    have hidx : (3 * ((y + c.height) / c.height)).toNat +
        ((x + c.width) / c.width).toNat =
        (3 * ((y + c.height) / c.height) +
          (x + c.width) / c.width).toNat := by
      omega
    rw [hidx]
    rfl
  · intro hNaN x y hout
    have hmem : ∀ (i : ℕ) (g : HeightTile), ns.getD i none = some g →
        NaNOutside c.width c.height g := fun i g hg =>
      hNaN (some g) (getD_some_mem hg) g rfl
    show (let row : ℕ × ℤ :=
        if y < 0 then (0, y + c.height)
        else if y < c.height then (3, y) else (6, y - c.height)
      let col : ℕ × ℤ :=
        if x < 0 then (0, x + c.width)
        else if x < c.width then (1, x) else (2, x - c.width)
      match ns.getD (row.1 + col.1) none with
      | none => none
      | some grid => grid.get col.2 row.2) = none
    by_cases hy0 : y < 0 <;> by_cases hx0 : x < 0
    · rw [if_pos hy0, if_pos hx0]
      exact part2_step ns c.width c.height _ _ _ (fun g hg => hmem _ g hg)
        (by omega)
    · by_cases hxw : x < c.width
      · rw [if_pos hy0, if_neg hx0, if_pos hxw]
        exact part2_step ns c.width c.height _ _ _ (fun g hg => hmem _ g hg)
          (by omega)
      · rw [if_pos hy0, if_neg hx0, if_neg hxw]
        exact part2_step ns c.width c.height _ _ _ (fun g hg => hmem _ g hg)
          (by omega)
    · by_cases hyh : y < c.height
      · rw [if_neg hy0, if_pos hyh, if_pos hx0]
        exact part2_step ns c.width c.height _ _ _ (fun g hg => hmem _ g hg)
          (by omega)
      · rw [if_neg hy0, if_neg hyh, if_pos hx0]
        exact part2_step ns c.width c.height _ _ _ (fun g hg => hmem _ g hg)
          (by omega)
    · by_cases hyh : y < c.height <;> by_cases hxw : x < c.width
      · rw [if_neg hy0, if_pos hyh, if_neg hx0, if_pos hxw]
        exact part2_step ns c.width c.height _ _ _ (fun g hg => hmem _ g hg)
          (by omega)
      · rw [if_neg hy0, if_pos hyh, if_neg hx0, if_neg hxw]
        exact part2_step ns c.width c.height _ _ _ (fun g hg => hmem _ g hg)
          (by omega)
      · rw [if_neg hy0, if_neg hyh, if_neg hx0, if_pos hxw]
        exact part2_step ns c.width c.height _ _ _ (fun g hg => hmem _ g hg)
          (by omega)
      · rw [if_neg hy0, if_neg hyh, if_neg hx0, if_neg hxw]
        exact part2_step ns c.width c.height _ _ _ (fun g hg => hmem _ g hg)
          (by omega)

/-- C3 counterexample: with nine copies of a 2×2 raw tile, sampling the
stitched tile at `(4, 0)` — outside `[−2, 4) × [−2, 4)`, where the claim
predicts NaN — delegates to the east neighbor at its out-of-bounds local
`(2, 0)`, whose flat index wraps to `data[2] = 3`, a number. -/
theorem combine_sample_counterexample :
    combinedSample ex9 4 0 = some (some 3) ∧
      some (some (3 : ℚ)) ≠ some (none : Val) :=
  ⟨by decide, by decide⟩

/-- Witness for C3 (amended) at the concrete nine-tile neighborhood. -/
theorem combine_neighbors_sample_amended_witness :
    combinedSample ex9 (-1) 0 =
      some (specCombinedSample ex9 (fromRawDem exDem).width
        (fromRawDem exDem).height (-1) 0) := by
  have h := combine_neighbors_sample_amended ex9 (fromRawDem exDem) _ rfl rfl
    (by decide) (by decide)
  have h14 := h.2.2.1 (-1) 0 (by decide) (by decide) (by decide) (by decide)
  exact congrArg some h14

/-! ### C5/C8: cache lemmas -/

theorem jmGet_eq_none_iff {α β : Type} [DecidableEq α] (l : List (α × β))
    (k : α) : jmGet l k = none ↔ ∀ q ∈ l, q.1 ≠ k := by
  induction l with
  | nil => simp [jmGet]
  | cons a rest ih =>
    obtain ⟨a1, a2⟩ := a
    by_cases h : a1 = k
    · subst h
      simp [jmGet]
    · simp [jmGet, h, ih]

theorem jmGet_jmSet_self {α β : Type} [DecidableEq α] (l : List (α × β))
    (k : α) (v : β) : jmGet (jmSet l k v) k = some v := by
  induction l with
  | nil => simp [jmGet, jmSet]
  | cons a rest ih =>
    obtain ⟨a1, a2⟩ := a
    by_cases h : a1 = k
    · simp [jmSet, jmGet, h]
    · simp [jmSet, jmGet, h, ih]

theorem jmSet_of_absent {α β : Type} [DecidableEq α] (l : List (α × β))
    (k : α) (v : β) (h : jmGet l k = none) : jmSet l k v = l ++ [(k, v)] := by
  induction l with
  | nil => rfl
  | cons a rest ih =>
    obtain ⟨a1, a2⟩ := a
    simp only [jmGet] at h
    by_cases hh : a1 = k
    · rw [if_pos hh] at h
      exact absurd h (by simp)
    · rw [if_neg hh] at h
      simp only [jmSet, if_neg hh, List.cons_append, ih h]

theorem jmGet_append_absent {α β : Type} [DecidableEq α] (l : List (α × β))
    (k : α) (v : β) (h : ∀ q ∈ l, q.1 ≠ k) :
    jmGet (l ++ [(k, v)]) k = some v := by
  induction l with
  | nil => simp [jmGet]
  | cons a rest ih =>
    obtain ⟨a1, a2⟩ := a
    have ha : a1 ≠ k := h (a1, a2) (by simp)
    simp only [List.cons_append, jmGet, if_neg ha]
    exact ih fun q hq => h q (by simp [hq])

theorem jmDelete_append_absent {α β : Type} [DecidableEq α]
    (l : List (α × β)) (k : α) (v : β) (h : ∀ q ∈ l, q.1 ≠ k) :
    jmDelete (l ++ [(k, v)]) k = l := by
  induction l with
  | nil => simp [jmDelete]
  | cons a rest ih =>
    obtain ⟨a1, a2⟩ := a
    have ha : a1 ≠ k := h (a1, a2) (by simp)
    simp only [List.cons_append, jmDelete, if_neg ha, List.append_eq]
    rw [ih fun q hq => h q (by simp [hq])]

theorem jmDelete_append_ne {α β : Type} [DecidableEq α] (l : List (α × β))
    (k : α) (v : β) (a : α) (hk : ∀ q ∈ l, q.1 ≠ k) (ha : a ≠ k) :
    jmDelete (l ++ [(k, v)]) a = jmDelete l a ++ [(k, v)] := by
  induction l with
  | nil => simp [jmDelete, Ne.symm ha]
  | cons b rest ih =>
    obtain ⟨b1, b2⟩ := b
    by_cases hb : b1 = a
    · simp only [List.cons_append, jmDelete, if_pos hb, List.append_eq]
    · simp only [List.cons_append, jmDelete, if_neg hb, List.append_eq]
      rw [ih fun q hq => hk q (by simp [hq])]

theorem jmDelete_subset {α β : Type} [DecidableEq α] (l : List (α × β))
    (a : α) : ∀ q ∈ jmDelete l a, q ∈ l := by
  induction l with
  | nil => simp [jmDelete]
  | cons b rest ih =>
    obtain ⟨b1, b2⟩ := b
    intro q hq
    simp only [jmDelete] at hq
    by_cases hb : b1 = a
    · rw [if_pos hb] at hq
      exact List.mem_cons_of_mem _ hq
    · rw [if_neg hb] at hq
      rcases List.mem_cons.mp hq with h | h
      · exact h ▸ List.mem_cons_self _ _
      · exact List.mem_cons_of_mem _ (ih q h)

theorem jmDelete_length_of_mem {α β : Type} [DecidableEq α]
    (l : List (α × β)) (a : α) (h : ∃ q ∈ l, q.1 = a) :
    (jmDelete l a).length + 1 = l.length := by
  induction l with
  | nil => simp at h
  | cons b rest ih =>
    obtain ⟨b1, b2⟩ := b
    by_cases hb : b1 = a
    · simp only [jmDelete, if_pos hb, List.length_cons]
    · simp only [jmDelete, if_neg hb, List.length_cons]
      rw [ih]
      obtain ⟨q, hq, hqa⟩ := h
      rcases List.mem_cons.mp hq with he | he
      · exact absurd ((congrArg Prod.fst he).symm.trans hqa) hb
      · exact ⟨q, he, hqa⟩

theorem pruneFold_some {K : Type} (store : List (ℕ × CacheItem)) :
    ∀ (l : List (K × ℕ)) (a : K × ℕ),
      ∃ p, pruneFold store (some a) l = some p := by
  intro l
  induction l with
  | nil => intro a; exact ⟨a, rfl⟩
  | cons b rest ih =>
    intro a
    obtain ⟨b1, b2⟩ := b
    simp only [pruneFold]
    split
    · exact ih _
    · exact ih _

theorem pruneFold_of_ne_nil {K : Type} (store : List (ℕ × CacheItem))
    (l : List (K × ℕ)) (hl : l ≠ []) :
    ∃ p, pruneFold store none l = some p := by
  obtain ⟨c, t, rfl⟩ := List.exists_cons_of_ne_nil hl
  obtain ⟨c1, c2⟩ := c
  simp only [pruneFold]
  exact pruneFold_some store t _

theorem pruneFold_spec {K : Type} (store : List (ℕ × CacheItem)) :
    ∀ (l : List (K × ℕ)) (acc : Option (K × ℕ)) (p : K × ℕ),
      pruneFold store acc l = some p →
      (some p = acc ∨
        ∃ q ∈ l, p = (q.1, ((jmGet store q.2).getD default).lastUsed)) ∧
      (∀ q ∈ l, p.2 ≤ ((jmGet store q.2).getD default).lastUsed) ∧
      (∀ a, acc = some a → p.2 ≤ a.2) := by
  intro l
  induction l with
  | nil =>
    intro acc p hp
    simp only [pruneFold] at hp
    refine ⟨Or.inl hp.symm, by simp, fun a ha => ?_⟩
    rw [hp] at ha
    obtain rfl := Option.some.inj ha
    exact le_refl _
  | cons b rest ih =>
    intro acc p hp
    obtain ⟨b1, b2⟩ := b
    rcases acc with _ | mk
    · simp only [pruneFold] at hp
      obtain ⟨h1, h2, h3⟩ := ih _ p hp
      refine ⟨?_, ?_, by simp⟩
      · rcases h1 with h | ⟨q, hq, hpq⟩
        · exact Or.inr ⟨(b1, b2), by simp, Option.some.inj h⟩
        · exact Or.inr ⟨q, by simp [hq], hpq⟩
      · intro q hq
        rcases List.mem_cons.mp hq with h | h
        · rw [h]
          exact h3 _ rfl
        · exact h2 q h
    · simp only [pruneFold] at hp
      by_cases hlt :
          ((jmGet store b2).getD default).lastUsed < mk.2
      · rw [if_pos hlt] at hp
        obtain ⟨h1, h2, h3⟩ := ih _ p hp
        have hple : p.2 ≤ ((jmGet store b2).getD default).lastUsed :=
          h3 _ rfl
        refine ⟨?_, ?_, ?_⟩
        · rcases h1 with h | ⟨q, hq, hpq⟩
          · exact Or.inr ⟨(b1, b2), by simp, Option.some.inj h⟩
          · exact Or.inr ⟨q, by simp [hq], hpq⟩
        · intro q hq
          rcases List.mem_cons.mp hq with h | h
          · rw [h]
            exact hple
          · exact h2 q h
        · intro a ha
          obtain rfl := Option.some.inj ha
          exact le_of_lt (lt_of_le_of_lt hple hlt)
      · rw [if_neg hlt] at hp
        obtain ⟨h1, h2, h3⟩ := ih _ p hp
        have hple : p.2 ≤ mk.2 := h3 _ rfl
        refine ⟨?_, ?_, ?_⟩
        · rcases h1 with h | ⟨q, hq, hpq⟩
          · exact Or.inl h
          · exact Or.inr ⟨q, by simp [hq], hpq⟩
        · intro q hq
          rcases List.mem_cons.mp hq with h | h
          · rw [h]
            exact le_trans hple (not_lt.mp hlt)
          · exact h2 q h
        · intro a ha
          obtain rfl := Option.some.inj ha
          exact hple

theorem prune_calls {K : Type} [DecidableEq K] (s : CacheState K) :
    (prune s).calls = s.calls := by
  unfold prune
  split
  · split <;> rfl
  · rfl

theorem prune_store {K : Type} [DecidableEq K] (s : CacheState K) :
    (prune s).store = s.store := by
  unfold prune
  split
  · split <;> rfl
  · rfl

theorem prune_items_of_lt {K : Type} [DecidableEq K] (s : CacheState K)
    (h : s.maxSize < s.items.length) (mk : K × ℕ)
    (hmk : pruneFold s.store none s.items = some mk) :
    (prune s).items = jmDelete s.items mk.1 := by
  unfold prune
  rw [if_pos h, hmk]

theorem prune_items_of_le {K : Type} [DecidableEq K] (s : CacheState K)
    (h : ¬(s.maxSize < s.items.length)) : (prune s).items = s.items := by
  unfold prune
  rw [if_neg h]

/-- A cache miss: `getCancelable` hands every caller the fresh reference,
invokes the supplier once, prepends the new item with tick `num + 1` and
`waiting = 1`, and appends the key; `prune` then either leaves the map
alone (when it fit) or evicts one old minimum-tick entry — never the key
just inserted, whose tick is strictly freshest. -/
theorem getCancelable_miss_core {K : Type} [DecidableEq K] (k : K)
    (s₀ : CacheState K) (hmiss : jmGet s₀.items k = none)
    (hwf : CacheWF s₀) (hsize : 1 ≤ s₀.maxSize) :
    (getCancelable k s₀).2 = ⟨k, s₀.nextRef, false⟩ ∧
    (getCancelable k s₀).1.calls = s₀.calls + 1 ∧
    (getCancelable k s₀).1.store =
      (s₀.nextRef, ⟨s₀.num + 1, 1⟩) :: s₀.store ∧
    ((s₀.items.length < s₀.maxSize ∧
        (getCancelable k s₀).1.items = s₀.items ++ [(k, s₀.nextRef)]) ∨
      (s₀.maxSize ≤ s₀.items.length ∧
        ∃ e ∈ s₀.items,
          (getCancelable k s₀).1.items =
            jmDelete s₀.items e.1 ++ [(k, s₀.nextRef)] ∧
          e.1 ≠ k ∧
          ∀ q ∈ s₀.items,
            ((jmGet s₀.store e.2).getD default).lastUsed ≤
              ((jmGet s₀.store q.2).getD default).lastUsed)) := by
  have hkeys : ∀ q ∈ s₀.items, q.1 ≠ k := (jmGet_eq_none_iff _ _).mp hmiss
  have hbranch : getCancelable k s₀ =
      (prune { s₀ with
        num := s₀.num + 1,
        calls := s₀.calls + 1,
        nextRef := s₀.nextRef + 1,
        store := (s₀.nextRef, ⟨s₀.num + 1, 1⟩) :: s₀.store,
        items := jmSet s₀.items k s₀.nextRef },
      ⟨k, s₀.nextRef, false⟩) := by
    unfold getCancelable
    rw [hmiss]
  have hitems' : jmSet s₀.items k s₀.nextRef =
      s₀.items ++ [(k, s₀.nextRef)] :=
    jmSet_of_absent _ _ _ hmiss
  -- old references resolve unchanged in the extended store
  have href : ∀ q ∈ s₀.items,
      jmGet ((s₀.nextRef, (⟨s₀.num + 1, 1⟩ : CacheItem)) :: s₀.store) q.2 =
        jmGet s₀.store q.2 := by
    intro q hq
    obtain ⟨it, hit, _⟩ := hwf.1 q hq
    have hne : s₀.nextRef ≠ q.2 := by
      intro he
      rw [← he, hwf.2] at hit
      exact absurd hit (by simp)
    simp [jmGet, hne]
  refine ⟨by rw [hbranch], by rw [hbranch]; exact prune_calls _,
    by rw [hbranch, prune_store], ?_⟩
  by_cases hov : s₀.maxSize < s₀.items.length + 1
  · -- the insertion overflowed: prune evicts a minimum
    refine Or.inr ⟨by omega, ?_⟩
    obtain ⟨mk, hmk⟩ := pruneFold_of_ne_nil
      ((s₀.nextRef, (⟨s₀.num + 1, 1⟩ : CacheItem)) :: s₀.store)
      (s₀.items ++ [(k, s₀.nextRef)]) (by simp)
    obtain ⟨h1, h2, _⟩ := pruneFold_spec _ _ none mk hmk
    rcases h1 with h | ⟨q, hq, hmkq⟩
    · exact absurd h (by simp)
    -- an old entry bounds the minimum strictly below the fresh tick
    have hold : s₀.items ≠ [] := by
      intro he
      rw [he] at hov
      simp at hov
      omega
    obtain ⟨p₀, hp₀⟩ := List.exists_mem_of_ne_nil _ hold
    obtain ⟨it₀, hit₀, hle₀⟩ := hwf.1 p₀ hp₀
    have hlu₀ : mk.2 ≤ s₀.num := by
      have := h2 p₀ (List.mem_append_left _ hp₀)
      rw [href p₀ hp₀, hit₀] at this
      exact le_trans this hle₀
    -- hence the fold cannot have selected the inserted key
    rcases List.mem_append.mp hq with hq' | hq'
    · refine ⟨q, hq', ?_, hkeys q hq', ?_⟩
      · -- prune fires and deletes q.1
        rw [hbranch]
        rw [prune_items_of_lt _ (by
          show s₀.maxSize < (jmSet s₀.items k s₀.nextRef).length
          rw [hitems']
          simp only [List.length_append, List.length_cons,
            List.length_nil]
          omega) mk (by
          show pruneFold
            ((s₀.nextRef, (⟨s₀.num + 1, 1⟩ : CacheItem)) :: s₀.store) none
            (jmSet s₀.items k s₀.nextRef) = some mk
          rw [hitems']
          exact hmk)]
        show jmDelete (jmSet s₀.items k s₀.nextRef) mk.1 = _
        rw [hitems', hmkq]
        exact jmDelete_append_ne _ _ _ _ hkeys (hkeys q hq')
      · intro q' hq'mem
        have hb := h2 q' (List.mem_append_left _ hq'mem)
        rw [href q' hq'mem] at hb
        rw [hmkq] at hb
        have hq2 : ((jmGet ((s₀.nextRef,
            (⟨s₀.num + 1, 1⟩ : CacheItem)) :: s₀.store) q.2).getD
              default).lastUsed =
            ((jmGet s₀.store q.2).getD default).lastUsed := by
          rw [href q hq']
        exact le_trans (le_of_eq hq2.symm) hb
    · -- the selected entry would be the fresh one: contradiction
      exfalso
      have hq1 : q = (k, s₀.nextRef) := by simpa using hq'
      rw [hmkq, hq1] at hlu₀
      simp [jmGet] at hlu₀
  · -- it fit: prune is the identity
    refine Or.inl ⟨by omega, ?_⟩
    rw [hbranch]
    rw [prune_items_of_le _ (by
      show ¬(s₀.maxSize < (jmSet s₀.items k s₀.nextRef).length)
      rw [hitems']
      simp only [List.length_append, List.length_cons, List.length_nil]
      omega)]
    exact hitems'

/-- Each subsequent `getCancelable` for the same key is a hit: the map and
the call counter are untouched, every caller receives the same reference,
and the shared item's waiter count grows by one per caller. -/
theorem getMany_hits {K : Type} [DecidableEq K] (k : K) (r : ℕ) :
    ∀ (j : ℕ) (s : CacheState K) (t : ℕ) (w : ℤ),
      jmGet s.items k = some r → jmGet s.store r = some ⟨t, w⟩ →
      (getMany k j s).2 = List.replicate j ⟨k, r, false⟩ ∧
      (getMany k j s).1.items = s.items ∧
      (getMany k j s).1.calls = s.calls ∧
      ∃ t', jmGet (getMany k j s).1.store r = some ⟨t', w + (j : ℤ)⟩ := by
  intro j
  induction j with
  | zero =>
    intro s t w hk hs
    refine ⟨rfl, rfl, rfl, t, ?_⟩
    show jmGet s.store r = _
    rw [hs]
    norm_num
  | succ n ih =>
    intro s t w hk hs
    have hstep : getCancelable k s =
        ({ s with
            num := s.num + 1,
            store := jmSet s.store r ⟨s.num + 1, w + 1⟩ }, ⟨k, r, false⟩) := by
      unfold getCancelable
      simp only [hk, hs, Option.getD_some]
    have hk' : jmGet (getCancelable k s).1.items k = some r := by
      rw [hstep]
      exact hk
    have hs' : jmGet (getCancelable k s).1.store r =
        some ⟨s.num + 1, w + 1⟩ := by
      rw [hstep]
      exact jmGet_jmSet_self _ _ _
    obtain ⟨h1, h2, h3, t', h4⟩ :=
      ih (getCancelable k s).1 (s.num + 1) (w + 1) hk' hs'
    have hgm : getMany k (n + 1) s =
        ((getMany k n (getCancelable k s).1).1,
          (getCancelable k s).2 :: (getMany k n (getCancelable k s).1).2) :=
      rfl
    rw [hgm]
    refine ⟨?_, ?_, ?_, t', ?_⟩
    · show (getCancelable k s).2 :: _ = _
      rw [h1, List.replicate_succ, hstep]
    · show (getMany k n (getCancelable k s).1).1.items = _
      rw [h2, hstep]
    · show (getMany k n (getCancelable k s).1).1.calls = _
      rw [h3, hstep]
    · show jmGet (getMany k n (getCancelable k s).1).1.store r = _
      have harith : w + 1 + (n : ℤ) = w + ((n + 1 : ℕ) : ℤ) := by
        push_cast
        ring
      rw [h4, harith]

/-- Cancelling fewer callers than the waiter count never fires the shared
signal and leaves the map untouched; each cancel decrements the count. -/
theorem cancelSeq_partial {K : Type} [DecidableEq K] (k : K) (r : ℕ) :
    ∀ (m : ℕ) (s : CacheState K) (t : ℕ) (w : ℤ),
      jmGet s.store r = some ⟨t, w⟩ → (m : ℤ) < w →
      (cancelSeq s (List.replicate m ⟨k, r, false⟩)).2 =
        List.replicate m false ∧
      (cancelSeq s (List.replicate m ⟨k, r, false⟩)).1.items = s.items ∧
      jmGet (cancelSeq s (List.replicate m ⟨k, r, false⟩)).1.store r =
        some ⟨t, w - (m : ℤ)⟩ := by
  intro m
  induction m with
  | zero =>
    intro s t w hs _
    refine ⟨rfl, rfl, ?_⟩
    show jmGet s.store r = _
    rw [hs]
    norm_num
  | succ n ih =>
    intro s t w hs hm
    have hcan : cancel s ⟨k, r, false⟩ =
        ({ s with store := jmSet s.store r ⟨t, w - 1⟩ },
          ⟨k, r, true⟩, false) := by
      unfold cancel
      simp only [hs, Option.getD_some]
      rw [if_neg (by simp), if_neg (by omega : ¬(w - 1 ≤ 0))]
    have hs' : jmGet (cancel s ⟨k, r, false⟩).1.store r =
        some ⟨t, w - 1⟩ := by
      rw [hcan]
      exact jmGet_jmSet_self _ _ _
    obtain ⟨h1, h2, h3⟩ :=
      ih (cancel s ⟨k, r, false⟩).1 t (w - 1) hs' (by omega)
    have hcs : cancelSeq s (List.replicate (n + 1) ⟨k, r, false⟩) =
        ((cancelSeq (cancel s ⟨k, r, false⟩).1
            (List.replicate n ⟨k, r, false⟩)).1,
          (cancel s ⟨k, r, false⟩).2.2 ::
            (cancelSeq (cancel s ⟨k, r, false⟩).1
              (List.replicate n ⟨k, r, false⟩)).2) := by
      rw [List.replicate_succ]
      rfl
    rw [hcs]
    refine ⟨?_, ?_, ?_⟩
    · show (cancel s ⟨k, r, false⟩).2.2 :: _ = _
      rw [h1, List.replicate_succ, hcan]
    · show (cancelSeq _ _).1.items = _
      rw [h2, hcan]
    · show jmGet (cancelSeq _ _).1.store r = _
      have harith : w - 1 - (n : ℤ) = w - ((n + 1 : ℕ) : ℤ) := by
        push_cast
        ring
      rw [h3, harith]

/-- The last cancel (waiter count 1) fires the shared signal and deletes
the key from the map. -/
theorem cancel_last {K : Type} [DecidableEq K] (k : K) (r : ℕ)
    (s : CacheState K) (t : ℕ) (hs : jmGet s.store r = some ⟨t, 1⟩) :
    (cancelSeq s [⟨k, r, false⟩]).2 = [true] ∧
    (cancelSeq s [⟨k, r, false⟩]).1.items = jmDelete s.items k := by
  have hcan : cancel s ⟨k, r, false⟩ =
      ({ s with
          store := jmSet s.store r ⟨t, 0⟩,
          items := jmDelete s.items k }, ⟨k, r, true⟩, true) := by
    unfold cancel
    simp only [hs, Option.getD_some]
    rw [if_neg (by simp), if_pos (by norm_num : (1 : ℤ) - 1 ≤ 0)]
    norm_num
  constructor
  · show [(cancel s ⟨k, r, false⟩).2.2] = [true]
    rw [hcan]
  · show (cancel s ⟨k, r, false⟩).1.items = _
    rw [hcan]

/-- Running cancel closures over a split list composes. -/
theorem cancelSeq_append {K : Type} [DecidableEq K] :
    ∀ (l₁ : List (CacheHandle K)) (s : CacheState K)
      (l₂ : List (CacheHandle K)),
      cancelSeq s (l₁ ++ l₂) =
        ((cancelSeq (cancelSeq s l₁).1 l₂).1,
          (cancelSeq s l₁).2 ++ (cancelSeq (cancelSeq s l₁).1 l₂).2) := by
  intro l₁
  induction l₁ with
  | nil =>
    intro s l₂
    simp [cancelSeq]
  | cons h hs ih =>
    intro s l₂
    have estep : ∀ (s' : CacheState K) (l : List (CacheHandle K)),
        cancelSeq s' (h :: l) =
          ((cancelSeq (cancel s' h).1 l).1,
            (cancel s' h).2.2 :: (cancelSeq (cancel s' h).1 l).2) :=
      fun s' l => rfl
    rw [List.cons_append, estep, estep, ih]
    simp [List.cons_append]

/-- C5: for a fresh key `k` in a well-formed cache with capacity at least
one, `N ≥ 1` concurrent gets invoke the supplier exactly once (the call
counter grows by exactly one) and all `N` callers share the first
caller's entry; running any `m < N` of the cancel closures fires no
shared cancel signal and keeps the entry cached, while running all `N`
fires the shared signal exactly at the last cancel and removes the key
from the cache. -/
theorem cache_single_flight {K : Type} [DecidableEq K] (k : K)
    (s₀ : CacheState K) (N m : ℕ) (hmiss : jmGet s₀.items k = none)
    (hwf : CacheWF s₀) (hsize : 1 ≤ s₀.maxSize) (hN : 1 ≤ N)
    (hm : m < N) :
    (getMany k N s₀).1.calls = s₀.calls + 1 ∧
    (getMany k N s₀).2 = List.replicate N ⟨k, s₀.nextRef, false⟩ ∧
    jmGet (getMany k N s₀).1.items k = some s₀.nextRef ∧
    ((cancelSeq (getMany k N s₀).1
        (List.replicate m ⟨k, s₀.nextRef, false⟩)).2 =
      List.replicate m false ∧
     jmGet (cancelSeq (getMany k N s₀).1
        (List.replicate m ⟨k, s₀.nextRef, false⟩)).1.items k =
      some s₀.nextRef) ∧
    ((cancelSeq (getMany k N s₀).1
        (List.replicate N ⟨k, s₀.nextRef, false⟩)).2 =
      List.replicate (N - 1) false ++ [true] ∧
     jmGet (cancelSeq (getMany k N s₀).1
        (List.replicate N ⟨k, s₀.nextRef, false⟩)).1.items k = none) := by
  obtain ⟨j, rfl⟩ : ∃ j, N = j + 1 := ⟨N - 1, by omega⟩
  obtain ⟨hhandle, hcalls, hstore, hbr⟩ :=
    getCancelable_miss_core k s₀ hmiss hwf hsize
  have hkeys : ∀ q ∈ s₀.items, q.1 ≠ k := (jmGet_eq_none_iff _ _).mp hmiss
  -- the post-miss map is `l₁ ++ [(k, nextRef)]` with `k` absent from `l₁`
  obtain ⟨l₁, hitems, hkeys₁⟩ :
      ∃ l₁, (getCancelable k s₀).1.items = l₁ ++ [(k, s₀.nextRef)] ∧
        ∀ q ∈ l₁, q.1 ≠ k := by
    rcases hbr with ⟨_, hi⟩ | ⟨_, e, he, hi, _, _⟩
    · exact ⟨s₀.items, hi, hkeys⟩
    · exact ⟨jmDelete s₀.items e.1, hi,
        fun q hq => hkeys q (jmDelete_subset _ _ q hq)⟩
  have hk₁ : jmGet (getCancelable k s₀).1.items k = some s₀.nextRef := by
    rw [hitems]
    exact jmGet_append_absent l₁ k _ hkeys₁
  have hr₁ : jmGet (getCancelable k s₀).1.store s₀.nextRef =
      some ⟨s₀.num + 1, 1⟩ := by
    rw [hstore]
    simp [jmGet]
  obtain ⟨hh2, hi2, hc2, t', hs2⟩ :=
    getMany_hits k s₀.nextRef j (getCancelable k s₀).1 (s₀.num + 1) 1
      hk₁ hr₁
  have hgm : getMany k (j + 1) s₀ =
      ((getMany k j (getCancelable k s₀).1).1,
        (getCancelable k s₀).2 ::
          (getMany k j (getCancelable k s₀).1).2) := rfl
  rw [hgm]
  refine ⟨?_, ?_, ?_, ?_, ?_⟩
  · show (getMany k j (getCancelable k s₀).1).1.calls = _
    rw [hc2, hcalls]
  · show (getCancelable k s₀).2 :: _ = _
    rw [hh2, List.replicate_succ, hhandle]
  · show jmGet (getMany k j (getCancelable k s₀).1).1.items k = _
    rw [hi2]
    exact hk₁
  · -- partial cancellation: the entry survives untouched
    obtain ⟨hp1, hp2, _⟩ :=
      cancelSeq_partial k s₀.nextRef m
        (getMany k j (getCancelable k s₀).1).1 t' (1 + (j : ℤ)) hs2
        (by omega)
    refine ⟨hp1, ?_⟩
    rw [hp2, hi2]
    exact hk₁
  · -- full cancellation: the last closure fires and deletes the key
    obtain ⟨hq1, hq2, hq3⟩ :=
      cancelSeq_partial k s₀.nextRef j
        (getMany k j (getCancelable k s₀).1).1 t' (1 + (j : ℤ)) hs2
        (by omega)
    have hone : jmGet (cancelSeq (getMany k j (getCancelable k s₀).1).1
        (List.replicate j ⟨k, s₀.nextRef, false⟩)).1.store s₀.nextRef =
        some ⟨t', 1⟩ := by
      rw [hq3]
      have : (1 : ℤ) + (j : ℤ) - (j : ℤ) = 1 := by ring
      rw [this]
    obtain ⟨hl1, hl2⟩ :=
      cancel_last k s₀.nextRef
        (cancelSeq (getMany k j (getCancelable k s₀).1).1
          (List.replicate j ⟨k, s₀.nextRef, false⟩)).1 t' hone
    have hsplit :
        List.replicate (j + 1) (⟨k, s₀.nextRef, false⟩ : CacheHandle K) =
          List.replicate j ⟨k, s₀.nextRef, false⟩ ++
            [⟨k, s₀.nextRef, false⟩] :=
      List.replicate_succ' _ _
    rw [hsplit, cancelSeq_append]
    constructor
    · show (cancelSeq _ _).2 ++ (cancelSeq _ _).2 = _
      rw [hq1, hl1]
      simp
    · show jmGet (cancelSeq _ _).1.items k = none
      rw [hl2, hq2, hi2, hitems,
        jmDelete_append_absent l₁ k _ hkeys₁]
      exact (jmGet_eq_none_iff _ _).mpr hkeys₁

/-- Witness for C5 at a concrete two-caller run on an empty cache. -/
theorem cache_single_flight_witness :
    (getMany 0 2 (⟨0, 1, 0, [], [], 0⟩ : CacheState ℕ)).1.calls = 0 + 1 ∧
    (cancelSeq (getMany 0 2 (⟨0, 1, 0, [], [], 0⟩ : CacheState ℕ)).1
        (List.replicate 2 ⟨0, 0, false⟩)).2 =
      List.replicate (2 - 1) false ++ [true] := by
  have h := cache_single_flight 0 ⟨0, 1, 0, [], [], 0⟩ 2 1 rfl
    ⟨by simp, rfl⟩ (by decide) (by decide) (by decide)
  exact ⟨h.1, h.2.2.2.2.1⟩

/-- C8 counterexample: with `maxSize = 0`, the very first insertion
overflows and `prune` evicts the minimum-tick entry — which is the entry
just inserted, the only one there is — so the claim's "never the entry
just inserted" fails and the cache ends empty. -/
theorem lru_claim_counterexample :
    jmGet (getCancelable 0 (⟨0, 0, 0, [], [], 0⟩ : CacheState ℕ)).1.items 0 =
      none ∧
    (getCancelable 0 (⟨0, 0, 0, [], [], 0⟩ : CacheState ℕ)).1.items = [] := by
  decide

/-- C8 (amended): in a well-formed cache with `maxSize ≥ 1` holding at
most `maxSize` entries, inserting a fresh key keeps the new entry; the
size stays at most `maxSize`; when the cache was exactly full, exactly
one old entry of minimal last-used tick is evicted and every other entry
is unchanged; and when it was below capacity nothing is evicted. -/
theorem lru_amended {K : Type} [DecidableEq K] (k : K)
    (s₀ : CacheState K) (hmiss : jmGet s₀.items k = none)
    (hwf : CacheWF s₀) (hsize : 1 ≤ s₀.maxSize)
    (hlen : s₀.items.length ≤ s₀.maxSize) :
    jmGet (getCancelable k s₀).1.items k = some s₀.nextRef ∧
    (getCancelable k s₀).1.items.length ≤ s₀.maxSize ∧
    (s₀.items.length = s₀.maxSize →
      ∃ e ∈ s₀.items,
        (getCancelable k s₀).1.items =
          jmDelete s₀.items e.1 ++ [(k, s₀.nextRef)] ∧
        e.1 ≠ k ∧
        ∀ q ∈ s₀.items,
          ((jmGet s₀.store e.2).getD default).lastUsed ≤
            ((jmGet s₀.store q.2).getD default).lastUsed) ∧
    (s₀.items.length < s₀.maxSize →
      (getCancelable k s₀).1.items = s₀.items ++ [(k, s₀.nextRef)]) := by
  have hkeys : ∀ q ∈ s₀.items, q.1 ≠ k := (jmGet_eq_none_iff _ _).mp hmiss
  obtain ⟨_, _, _, hbr⟩ := getCancelable_miss_core k s₀ hmiss hwf hsize
  rcases hbr with ⟨hlt, hi⟩ | ⟨hge, e, he, hi, hek, hmin⟩
  · refine ⟨?_, ?_, ?_, fun _ => hi⟩
    · rw [hi]
      exact jmGet_append_absent _ k _ hkeys
    · rw [hi]
      simp only [List.length_append, List.length_cons, List.length_nil]
      omega
    · intro hfull
      omega
  · have hdel : (jmDelete s₀.items e.1).length + 1 = s₀.items.length :=
      jmDelete_length_of_mem _ _ ⟨e, he, rfl⟩
    refine ⟨?_, ?_, fun _ => ⟨e, he, hi, hek, hmin⟩, ?_⟩
    · rw [hi]
      exact jmGet_append_absent _ k _
        fun q hq => hkeys q (jmDelete_subset _ _ q hq)
    · rw [hi]
      simp only [List.length_append, List.length_cons, List.length_nil]
      omega
    · intro hunder
      omega

/-- Witness for C8 (amended) on a one-entry cache at capacity. -/
theorem lru_amended_witness :
    jmGet (getCancelable 0 (⟨5, 1, 7, [(3, ⟨2, 1⟩)], [(9, 3)], 0⟩ :
        CacheState ℕ)).1.items 0 = some 7 ∧
    (getCancelable 0 (⟨5, 1, 7, [(3, ⟨2, 1⟩)], [(9, 3)], 0⟩ :
        CacheState ℕ)).1.items.length ≤ 1 := by
  have h := lru_amended 0 ⟨5, 1, 7, [(3, ⟨2, 1⟩)], [(9, 3)], 0⟩ (by decide)
    ⟨by
      intro p hp
      simp only [List.mem_singleton] at hp
      subst hp
      exact ⟨⟨2, 1⟩, rfl, by norm_num⟩, rfl⟩
    (by decide) (by decide)
  exact ⟨h.1, h.2.1⟩

end MaplibreContour
